import Mathlib

/-!
Verification development for the fitobj flatten/unflatten engine.

The Go values handled by the engine (`map[string]any` decoded from JSON) are
modelled by `Value` below.  Go maps are modelled as association lists whose
list order stands for the (sequentialized) iteration order; Go map semantics
(unique keys, in-place update) is provided by `lookupKey` / `setKey`.
Functions whose Go originals recurse through nested maps are defined with an
explicit fuel argument (initialized from `sizeOf`, which strictly bounds the
recursion depth) so that every definition is executable by kernel reduction.
Go runtime panics (out-of-range slice indexing) are modelled by `Option`:
a `none` result means the Go original panics.
-/

namespace Fitobj

mutual

/-- A decoded JSON document value: Go's `any` as produced by `encoding/json`
(`nil`, `bool`, `float64`, `string`, `map[string]any`, `[]any`).  Numbers are
modelled as integers; their arithmetic is never used by the engine. -/
inductive Value where
  | vnull : Value
  | vbool : Bool → Value
  | vnum : Int → Value
  | vstr : String → Value
  | vobj : EntryList → Value
  | varr : ValueList → Value

/-- Entries of a Go `map[string]any`, in iteration order. -/
inductive EntryList where
  | nil : EntryList
  | cons : String → Value → EntryList → EntryList

/-- Elements of a Go `[]any` slice. -/
inductive ValueList where
  | nil : ValueList
  | cons : Value → ValueList → ValueList

end

instance : Inhabited Value := ⟨Value.vnull⟩

/-- Build an `EntryList` from a Lean list literal. -/
def E : List (String × Value) → EntryList
  | [] => .nil
  | (k, v) :: rest => .cons k v (E rest)

/-- Build a `ValueList` from a Lean list literal. -/
def A : List Value → ValueList
  | [] => .nil
  | v :: rest => .cons v (A rest)

namespace EntryList

/-- Go map read `m[k]` (comma-ok form). -/
def lookupKey : EntryList → String → Option Value
  | .nil, _ => none
  | .cons k v rest, key => if k = key then some v else lookupKey rest key

/-- Go map write `m[k] = v`: replaces in place, or appends a new key. -/
def setKey : EntryList → String → Value → EntryList
  | .nil, key, v => .cons key v .nil
  | .cons k w rest, key, v =>
      if k = key then .cons k v rest else .cons k w (setKey rest key v)

/-- Go `delete(m, k)`. -/
def eraseKey : EntryList → String → EntryList
  | .nil, _ => .nil
  | .cons k w rest, key => if k = key then rest else .cons k w (eraseKey rest key)

/-- Go `_, ok := m[k]`. -/
def containsKey (m : EntryList) (key : String) : Bool :=
  (lookupKey m key).isSome

/-- Keys of a map, in iteration order. -/
def keysOf : EntryList → List String
  | .nil => []
  | .cons k _ rest => k :: keysOf rest

/-- Go `len(m)`. -/
def length : EntryList → Nat
  | .nil => 0
  | .cons _ _ rest => length rest + 1

/-- Go `len(m) == 0`. -/
def isEmpty : EntryList → Bool
  | .nil => true
  | .cons _ _ _ => false

/-- Every entry satisfies the (boolean) predicate. -/
def allP (p : String → Value → Bool) : EntryList → Bool
  | .nil => true
  | .cons k v rest => p k v && allP p rest

/-- Append two entry lists. -/
def append : EntryList → EntryList → EntryList
  | .nil, m => m
  | .cons k v rest, m => .cons k v (append rest m)

end EntryList

namespace ValueList

/-- Go `len(arr)`. -/
def length : ValueList → Nat
  | .nil => 0
  | .cons _ rest => length rest + 1

/-- Go `len(arr) == 0`. -/
def isEmpty : ValueList → Bool
  | .nil => true
  | .cons _ _ => false

/-- Go slice read `arr[i]` (in-range variant). -/
def get? : ValueList → Nat → Option Value
  | .nil, _ => none
  | .cons v _, 0 => some v
  | .cons _ rest, i + 1 => get? rest i

/-- Go slice write `arr[i] = v` (no-op when out of range; callers guard). -/
def set : ValueList → Nat → Value → ValueList
  | .nil, _, _ => .nil
  | .cons _ rest, 0, v => .cons v rest
  | .cons w rest, i + 1, v => .cons w (set rest i v)

/-- `n` copies of `v` (Go `make([]any, n)` makes `n` nils). -/
def replicate : Nat → Value → ValueList
  | 0, _ => .nil
  | n + 1, v => .cons v (replicate n v)

/-- Append two slices. -/
def append : ValueList → ValueList → ValueList
  | .nil, l => l
  | .cons v rest, l => .cons v (append rest l)

end ValueList

open EntryList ValueList

mutual

/-- Structural size of a value, used as recursion fuel for the functions
whose Go originals recurse through nested maps. -/
def sizeV : Value → Nat
  | .vobj m => sizeE m + 1
  | .varr l => sizeL l + 1
  | _ => 1

/-- Structural size of a map. -/
def sizeE : EntryList → Nat
  | .nil => 1
  | .cons _ v rest => sizeV v + sizeE rest + 1

/-- Structural size of a slice. -/
def sizeL : ValueList → Nat
  | .nil => 1
  | .cons v rest => sizeV v + sizeL rest + 1

end

-- sanity checks that the basic operations evaluate by kernel reduction
example : EntryList.lookupKey (E [("a", Value.vnull)]) "a" = some Value.vnull := rfl
example : sizeE (E [("a", Value.vnull)]) = 3 := rfl

/-! ## Go standard-library primitives used by the engine -/

/-- Go `strconv.Atoi`: an optional sign followed by at least one decimal
digit, rejecting anything else and values outside the int64 range (on which
Go returns a non-nil error, which every caller treats as "not numeric"). -/
def atoi (s : String) : Option Int :=
  let signAndDigits : Int × List Char :=
    match s.toList with
    | '+' :: rest => (1, rest)
    | '-' :: rest => (-1, rest)
    | rest => (1, rest)
  let sign := signAndDigits.1
  let ds := signAndDigits.2
  if ds.isEmpty then none
  else if ds.all Char.isDigit then
    let n : Nat := ds.foldl (fun a c => a * 10 + (c.toNat - 48)) 0
    let v : Int := sign * (n : Int)
    if -9223372036854775808 ≤ v ∧ v ≤ 9223372036854775807 then some v else none
  else none

example : atoi "0" = some 0 := rfl
example : atoi "-1" = some (-1) := rfl
example : atoi "addresses" = none := rfl
example : atoi "" = none := rfl
example : atoi "+" = none := rfl
example : atoi "007" = some 7 := rfl

/-- Scanner for Go `strings.Split` (non-empty separator case): cut the input
at each leftmost, non-overlapping occurrence of the separator.  The fuel
argument (one unit per consumed character) only encodes termination; callers
pass the input length, which always suffices. -/
def splitAux (sep : List Char) : Nat → List Char → List Char → List (List Char)
  | _, [], acc => [acc.reverse]
  | 0, cs, acc => [acc.reverse ++ cs]
  | fuel + 1, c :: rest, acc =>
      if sep.isPrefixOf (c :: rest) then
        acc.reverse :: splitAux sep fuel (List.drop sep.length (c :: rest)) []
      else
        splitAux sep fuel rest (c :: acc)

/-- Go `strings.Split s sep`.  An empty separator splits into characters. -/
def splitGo (s sep : String) : List String :=
  if sep = "" then s.toList.map (fun c => String.mk [c])
  else (splitAux sep.toList s.length s.toList []).map (fun cs => String.mk cs)

example : splitGo "a.b.c" "." = ["a", "b", "c"] := rfl
example : splitGo "" "." = [""] := rfl
example : splitGo "a..b" "." = ["a", "", "b"] := rfl
example : splitGo "a__b" "__" = ["a", "b"] := rfl

/-- Scanner equivalent of the regex replacement
`regexp.MustCompile("\x5c[([0-9]+)\x5c]").ReplaceAllString(key, sep + "$1")`:
each leftmost occurrence of a bracketed digit run is replaced by the
separator followed by the digits.  Fuel as in `splitAux`. -/
def convBracketAux (sep : List Char) : Nat → List Char → List Char
  | _, [] => []
  | 0, cs => cs
  | fuel + 1, c :: rest =>
      if c = '[' then
        match rest.dropWhile Char.isDigit with
        | ']' :: rest2 =>
            if (rest.takeWhile Char.isDigit).isEmpty then
              c :: convBracketAux sep fuel rest
            else
              sep ++ rest.takeWhile Char.isDigit ++ convBracketAux sep fuel rest2
        | _ => c :: convBracketAux sep fuel rest
      else c :: convBracketAux sep fuel rest

/-- fitter.convertBracketToDot (src/utils/json.go): rewrites `user[0].name`
to `user.0.name`. -/
def convertBracketToDot (key sep : String) : String :=
  String.mk (convBracketAux sep.toList key.length key.toList)

example : convertBracketToDot "user[0].name" "." = "user.0.name" := rfl
example : convertBracketToDot "a[12]b" "." = "a.12b" := rfl
example : convertBracketToDot "a[]b" "." = "a[]b" := rfl

/-! ## Flattener (src/fitter/flatten.go) -/

/-- fitter.FlattenOptions. -/
structure FlattenOptions where
  Separator : String
  MaxDepth : Int
  IncludeArrayIndices : Bool
  ArrayFormatting : String
  BufferSize : Nat

/-- fitter.DefaultFlattenOptions. -/
def DefaultFlattenOptions : FlattenOptions :=
  { Separator := "."
    MaxDepth := -1
    IncludeArrayIndices := true
    ArrayFormatting := "index"
    BufferSize := 16 }

/-- The `for k, v := range obj { result[k] = v }` copy in fitter.flatten's
depth-exceeded, empty-key-prefix branch. -/
def copyEntries : EntryList → EntryList → EntryList
  | .nil, result => result
  | .cons k v rest, result => copyEntries rest (EntryList.setKey result k v)

mutual

/-- fitter.flatten (src/fitter/flatten.go lines 65-167).  The fuel argument
bounds the call depth (one unit per call); `sizeOf` of the map strictly
dominates it.  When fuel runs out the accumulated result is returned, a case
the top-level wrapper never reaches. -/
def flattenGo (fuel : Nat) (obj : EntryList) (pre : String) (result : EntryList)
    (opts : FlattenOptions) (depth : Int) : EntryList :=
  match fuel with
  | 0 => result
  | fuel + 1 =>
    if 0 ≤ opts.MaxDepth ∧ opts.MaxDepth < depth then
      if pre = "" then copyEntries obj result
      else EntryList.setKey result pre (Value.vobj obj)
    else
      flattenEntriesGo fuel obj pre result opts depth

/-- The `for key, value := range obj` loop body of fitter.flatten. -/
def flattenEntriesGo (fuel : Nat) (obj : EntryList) (pre : String) (result : EntryList)
    (opts : FlattenOptions) (depth : Int) : EntryList :=
  match fuel with
  | 0 => result
  | fuel + 1 =>
    match obj with
    | .nil => result
    | .cons key value rest =>
      let fullKey := if pre = "" then key else pre ++ opts.Separator ++ key
      let result1 :=
        match value with
        | Value.vobj m =>
            if m.isEmpty then EntryList.setKey result fullKey value
            else flattenGo fuel m fullKey result opts (depth + 1)
        | Value.varr items =>
            if items.isEmpty then EntryList.setKey result fullKey value
            else if opts.IncludeArrayIndices then
              flattenItemsGo fuel items 0 fullKey result opts depth
            else EntryList.setKey result fullKey value
        | _ => EntryList.setKey result fullKey value
      flattenEntriesGo fuel rest pre result1 opts depth

/-- The `for i, item := range typedValue` array loop of fitter.flatten. -/
def flattenItemsGo (fuel : Nat) (items : ValueList) (i : Nat) (fullKey : String)
    (result : EntryList) (opts : FlattenOptions) (depth : Int) : EntryList :=
  match fuel with
  | 0 => result
  | fuel + 1 =>
    match items with
    | .nil => result
    | .cons item rest =>
      let indexedKey :=
        if opts.ArrayFormatting = "bracket" then fullKey ++ "[" ++ toString i ++ "]"
        else fullKey ++ opts.Separator ++ toString i
      let result1 :=
        match item with
        | Value.vobj m =>
            if m.isEmpty then EntryList.setKey result indexedKey item
            else flattenGo fuel m indexedKey result opts (depth + 1)
        | Value.varr inner =>
            if inner.isEmpty then EntryList.setKey result indexedKey item
            else if opts.IncludeArrayIndices then
              flattenNestedGo fuel inner 0 indexedKey result opts depth
            else EntryList.setKey result indexedKey item
        | _ => EntryList.setKey result indexedKey item
      flattenItemsGo fuel rest (i + 1) fullKey result1 opts depth

/-- The `for j, nestedItem := range itemTyped` nested-array loop of
fitter.flatten; note that non-map elements (including further arrays) are
inserted verbatim, and map elements recurse with depth+2. -/
def flattenNestedGo (fuel : Nat) (items : ValueList) (j : Nat) (indexedKey : String)
    (result : EntryList) (opts : FlattenOptions) (depth : Int) : EntryList :=
  match fuel with
  | 0 => result
  | fuel + 1 =>
    match items with
    | .nil => result
    | .cons nestedItem rest =>
      let nestedIndexedKey :=
        if opts.ArrayFormatting = "bracket" then indexedKey ++ "[" ++ toString j ++ "]"
        else indexedKey ++ opts.Separator ++ toString j
      let result1 :=
        match nestedItem with
        | Value.vobj m =>
            if m.isEmpty then EntryList.setKey result nestedIndexedKey nestedItem
            else flattenGo fuel m nestedIndexedKey result opts (depth + 2)
        | _ => EntryList.setKey result nestedIndexedKey nestedItem
      flattenNestedGo fuel rest (j + 1) indexedKey result1 opts depth

end

/-- fitter.FlattenMapWithOptions. -/
def FlattenMapWithOptions (obj : EntryList) (pre : String) (opts : FlattenOptions) : EntryList :=
  flattenGo (sizeE obj + 1) obj pre .nil opts 0

/-- fitter.FlattenMap (default options). -/
def FlattenMap (obj : EntryList) (pre : String) : EntryList :=
  FlattenMapWithOptions obj pre DefaultFlattenOptions

example :
    FlattenMap (E [("user", Value.vobj (E [("name", Value.vstr "John")]))]) "" =
      E [("user.name", Value.vstr "John")] := rfl

/-! ## Unflattener (src/utils/json.go, fitter part) -/

/-- fitter.UnflattenOptions. -/
structure UnflattenOptions where
  Separator : String
  DetectArrays : Bool
  SupportBracketNotation : Bool
  BufferSize : Nat

/-- fitter.DefaultUnflattenOptions. -/
def DefaultUnflattenOptions : UnflattenOptions :=
  { Separator := "."
    DetectArrays := true
    SupportBracketNotation := true
    BufferSize := 16 }

/-- fitter.assignToNested (src/utils/json.go lines 202-292): walk/create the
nested structure along `parts` and place `value` at the end.  A `none` result
models the Go runtime panic `index out of range` hit when a segment parses as
a negative array index (`arr[nextIndex]` with `nextIndex < 0`, reached both
through an existing slice and through `make([]any, nextIndex+1)`).  Note that
when the final segment is numeric the recursion bottoms out on an empty parts
list and the value is silently dropped, exactly as in the source. -/
def assignToNested (obj : EntryList) (parts : List String) (value : Value)
    (opts : UnflattenOptions) : Option EntryList :=
  match parts with
  | [] => some obj
  | [part] => some (EntryList.setKey obj part value)
  | part :: next :: rest =>
      let nextIdx : Option Int := if opts.DetectArrays then atoi next else none
      match nextIdx with
      | some idx =>
          if idx < 0 then none
          else
            let idxN := idx.toNat
            let arr0 : ValueList :=
              match EntryList.lookupKey obj part with
              | some (Value.varr a) => a
              | _ => ValueList.replicate (idxN + 1) Value.vnull
            let arr1 := arr0.append (ValueList.replicate (idxN + 1 - arr0.length) Value.vnull)
            let nextObj : EntryList :=
              match arr1.get? idxN with
              | some (Value.vobj m) => m
              | _ => .nil
            do
              let nextObj2 ← assignToNested nextObj rest value opts
              some (EntryList.setKey obj part (Value.varr (arr1.set idxN (Value.vobj nextObj2))))
      | none =>
          let nextObj : EntryList :=
            match EntryList.lookupKey obj part with
            | some (Value.vobj m) => m
            | _ => .nil
          do
            let nextObj2 ← assignToNested nextObj (next :: rest) value opts
            some (EntryList.setKey obj part (Value.vobj nextObj2))

/-- The `allNumeric && hasKeys` test of fitter.convertNumericMapsToArrays
(src/utils/json.go): non-empty and every key parses with `strconv.Atoi`.
Note there is no gap check in this revision. -/
def convPromote (pm : EntryList) : Bool :=
  !pm.isEmpty && pm.allP (fun k _ => (atoi k).isSome)

/-- The `maxIdx` accumulation loop shared by the promotion code paths. -/
def convMaxIdxAux : EntryList → Int → Int
  | .nil, m => m
  | .cons k _ rest, m =>
      convMaxIdxAux rest
        (match atoi k with
         | some idx => if m < idx then idx else m
         | none => m)

/-- Largest `strconv.Atoi` value among the keys, starting from -1. -/
def convMaxIdx (pm : EntryList) : Int :=
  convMaxIdxAux pm (-1)

/-- The fill loop `for k, v := range processedMap { idx, _ := strconv.Atoi(k);
arr[idx] = v }` of fitter.convertNumericMapsToArrays; `none` models the panic
on a negative index. -/
def convFillAux : EntryList → ValueList → Option ValueList
  | .nil, arr => some arr
  | .cons k v rest, arr =>
      let idx := (atoi k).getD 0
      if 0 ≤ idx ∧ idx < (arr.length : Int) then convFillAux rest (arr.set idx.toNat v)
      else none

/-- Build the promoted array (`make([]any, maxIdx+1)` then fill). -/
def convFill (pm : EntryList) : Option ValueList :=
  convFillAux pm (ValueList.replicate (convMaxIdx pm + 1).toNat Value.vnull)

mutual

/-- fitter.convertNumericMapsToArrays (src/utils/json.go lines 295-378):
recursively replaces map values all of whose keys are numeric by arrays.
Fueled like `flattenGo`; `none` models the negative-index panic. -/
def convGo (fuel : Nat) (obj : EntryList) : Option EntryList :=
  match fuel with
  | 0 => some obj
  | fuel + 1 =>
    match obj with
    | .nil => some .nil
    | .cons k v rest => do
        let v2 ←
          match v with
          | Value.vobj m => do
              let pm ← convGo fuel m
              if convPromote pm then do
                let arr ← convFill pm
                pure (Value.varr arr)
              else pure (Value.vobj pm)
          | Value.varr items => do
              let items2 ← convItemsGo fuel items
              pure (Value.varr items2)
          | other => pure other
        let rest2 ← convGo fuel rest
        some (.cons k v2 rest2)

/-- The `case []any` loop of fitter.convertNumericMapsToArrays: only map
elements are processed; other elements (including nested arrays) are kept
as they are. -/
def convItemsGo (fuel : Nat) (items : ValueList) : Option ValueList :=
  match fuel with
  | 0 => some items
  | fuel + 1 =>
    match items with
    | .nil => some .nil
    | .cons item rest => do
        let item2 ←
          match item with
          | Value.vobj m => do
              let pm ← convGo fuel m
              if convPromote pm then do
                let arr ← convFill pm
                pure (Value.varr arr)
              else pure (Value.vobj pm)
          | other => pure other
        let rest2 ← convItemsGo fuel rest
        some (.cons item2 rest2)

end

/-- Key preprocessing loop of fitter.UnflattenMapWithOptions: bracket
notation is rewritten when enabled, then the pair is stored in a fresh map. -/
def preprocessGo (opts : UnflattenOptions) : EntryList → EntryList → EntryList
  | .nil, acc => acc
  | .cons k v rest, acc =>
      let k2 := if opts.SupportBracketNotation then convertBracketToDot k opts.Separator else k
      preprocessGo opts rest (EntryList.setKey acc k2 v)

/-- Main loop of fitter.UnflattenMapWithOptions: split each key and assign. -/
def assignLoop (opts : UnflattenOptions) : EntryList → EntryList → Option EntryList
  | .nil, res => some res
  | .cons k v rest, res => do
      let res2 ← assignToNested res (splitGo k opts.Separator) v opts
      assignLoop opts rest res2

/-- fitter.UnflattenMapWithOptions (src/utils/json.go lines 168-192). -/
def UnflattenMapWithOptions (obj : EntryList) (opts : UnflattenOptions) : Option EntryList := do
  let processed := preprocessGo opts obj .nil
  let result ← assignLoop opts processed .nil
  convGo (sizeE result) result

/-- fitter.UnflattenMap (default options). -/
def UnflattenMap (obj : EntryList) : Option EntryList :=
  UnflattenMapWithOptions obj DefaultUnflattenOptions

example :
    UnflattenMap (E [("user.name", Value.vstr "John")]) =
      some (E [("user", Value.vobj (E [("name", Value.vstr "John")]))]) := rfl

/-! ## Array-promotion helpers of the other unflatten revision
(src/unnamed/part_000 lines 584-627) -/

/-- fitter.shouldConvertToArray (src/unnamed/part_000): non-empty, every key
numeric, and every index `0..maxIdx` present (the gap check missing from the
json.go revision). -/
def shouldConvertToArray (m : EntryList) : Bool :=
  if m.isEmpty then false
  else if m.allP (fun k _ => (atoi k).isSome) then
    (List.range (convMaxIdx m + 1).toNat).all (fun i => m.containsKey (toString i))
  else false

/-- Fill loop of fitter.convertMapToArray (src/unnamed/part_000): skips keys
that fail `strconv.Atoi`; `none` models the panic on a negative index. -/
def convMapToArrAux : EntryList → ValueList → Option ValueList
  | .nil, arr => some arr
  | .cons k v rest, arr =>
      match atoi k with
      | some idx =>
          if 0 ≤ idx ∧ idx < (arr.length : Int) then convMapToArrAux rest (arr.set idx.toNat v)
          else none
      | none => convMapToArrAux rest arr

/-- fitter.convertMapToArray (src/unnamed/part_000). -/
def convertMapToArray (m : EntryList) : Option ValueList :=
  convMapToArrAux m (ValueList.replicate (convMaxIdx m + 1).toNat Value.vnull)

example : shouldConvertToArray (E [("0", Value.vstr "x"), ("1", Value.vstr "y")]) = true := rfl
example : shouldConvertToArray (E [("0", Value.vstr "x"), ("2", Value.vstr "y")]) = false := rfl
example : shouldConvertToArray (E [("name", Value.vstr "x")]) = false := rfl

/-! ## i18n key removal (src/unnamed/part_007) -/

/-- Character loop of i18n.splitKeyPath: scan for separator occurrences,
flushing the current segment when non-empty (empty segments are dropped).
For an empty separator the Go loop never terminates; the model is only used
with non-empty separators.  Fuel as in `splitAux`. -/
def splitKeyPathAux (sep : List Char) :
    Nat → List Char → List Char → List (List Char) → List (List Char)
  | _, [], current, acc =>
      (if current.isEmpty then acc else current.reverse :: acc).reverse
  | 0, cs, current, acc => ((cs.reverse ++ current).reverse :: acc).reverse
  | fuel + 1, c :: rest, current, acc =>
      if sep ≠ [] ∧ sep.isPrefixOf (c :: rest) then
        splitKeyPathAux sep fuel (List.drop sep.length (c :: rest)) []
          (if current.isEmpty then acc else current.reverse :: acc)
      else
        splitKeyPathAux sep fuel rest (c :: current) acc

/-- i18n.splitKeyPath (src/unnamed/part_007 lines 204-229). -/
def splitKeyPath (keyPath sep : String) : List String :=
  if keyPath = "" then []
  else (splitKeyPathAux sep.toList keyPath.length keyPath.toList [] []).map
    (fun cs => String.mk cs)

example : splitKeyPath "hello.world" "." = ["hello", "world"] := rfl
example : splitKeyPath "" "." = [] := rfl
example : splitKeyPath "a__b__c" "__" = ["a", "b", "c"] := rfl
example : splitKeyPath "a..b" "." = ["a", "b"] := rfl

/-- Navigation loop of i18n.RemoveKeysFromPath over all parts but the last:
returns the visited `(parent map, entered key)` pairs (Go's `parents` and
`parentKeys` slices) and the final map, or `none` when a segment is missing
or holds a non-map value. -/
def navigateParents (current : EntryList) :
    List String → Option (List (EntryList × String) × EntryList)
  | [] => some ([], current)
  | part :: rest =>
      match EntryList.lookupKey current part with
      | some (Value.vobj nextMap) => do
          let cf ← navigateParents nextMap rest
          some ((current, part) :: cf.1, cf.2)
      | _ => none

/-- The bottom-up cleanup loop of i18n.RemoveKeysFromPath, expressed as a
pure rebuild: each parent either drops the entered key (when the updated
child map became empty, Go's `delete(parents[i-1], parentKey)`) or stores
the updated child back (the in-place mutation visible through the alias). -/
def rebuildChain : List (EntryList × String) → EntryList → EntryList
  | [], child => child
  | (parentMap, k) :: restChain, child =>
      let newChild := rebuildChain restChain child
      if newChild.isEmpty then parentMap.eraseKey k
      else parentMap.setKey k (Value.vobj newChild)

/-- Split a non-empty list into its front and its last element. -/
def splitLastAux : String → List String → List String × String
  | x, [] => ([], x)
  | x, y :: rest =>
      let fl := splitLastAux y rest
      (x :: fl.1, fl.2)

/-- i18n.RemoveKeysFromPath (src/unnamed/part_007 lines 148-201): returns
Go's boolean result together with the (possibly mutated) root map. -/
def RemoveKeysFromPath (value : EntryList) (keyPath sep : String) : Bool × EntryList :=
  match splitKeyPath keyPath sep with
  | [] => (false, value)
  | [p] => if value.containsKey p then (true, value.eraseKey p) else (false, value)
  | p1 :: p2 :: ps =>
      let fl := splitLastAux p1 (p2 :: ps)
      match navigateParents value fl.1 with
      | none => (false, value)
      | some cf =>
          if cf.2.containsKey fl.2 then (true, rebuildChain cf.1 (cf.2.eraseKey fl.2))
          else (false, value)

example :
    RemoveKeysFromPath
      (E [("deep", Value.vobj (E [("nested", Value.vobj (E [("object",
          Value.vobj (E [("key", Value.vstr "value")]))]))])), ("keep", Value.vstr "this")])
      "deep.nested.object.key" "." =
      (true, E [("keep", Value.vstr "this")]) := rfl

example :
    RemoveKeysFromPath (E [("hello", Value.vstr "world")]) "nonexistent.key" "." =
      (false, E [("hello", Value.vstr "world")]) := rfl

/-! ## Batch coordinator (src/processor/file.go) -/

/-- Result-draining loop of processor.ProcessDirectoryWithOptions: one result
per discovered file, counted as success or failure; successful jobs have
written their output file before reporting.  The worker pool is sequentialized
(the counts and the set of written files do not depend on completion order)
and per-file I/O plus transform is abstracted into the `ok` oracle. -/
def drainResults : List String → (String → Bool) → Nat → Nat → List String →
    Nat × Nat × List String
  | [], _, s, e, written => (s, e, written.reverse)
  | f :: rest, ok, s, e, written =>
      if ok f then drainResults rest ok (s + 1) e (f :: written)
      else drainResults rest ok s (e + 1) written

/-- processor.ProcessDirectoryWithOptions (src/processor/file.go lines
104-209), directory I/O abstracted: given the discovered JSON file list and
the per-file success oracle, returns the aggregate error (none = nil) and
the list of files whose outputs were written.  An empty file list returns
nil after a warning. -/
def ProcessDirectoryGo (jsonFiles : List String) (ok : String → Bool) :
    Option String × List String :=
  match jsonFiles with
  | [] => (none, [])
  | _ =>
    let r := drainResults jsonFiles ok 0 0 []
    (if 0 < r.2.1 then some (toString r.2.1 ++ " files failed to process") else none, r.2.2)

example :
    ProcessDirectoryGo ["a.json", "b.json", "c.json"] (fun f => f ≠ "b.json") =
      (some "1 files failed to process", ["a.json", "c.json"]) := rfl

/-! ## Specification-side notions used to state the claims -/

/-- Read the value stored at a (non-empty) segment path: descend through
nested maps and look the final segment up. -/
def lookupPath : EntryList → List String → Option Value
  | _, [] => none
  | m, [k] => m.lookupKey k
  | m, k :: rest =>
      match m.lookupKey k with
      | some (Value.vobj sub) => lookupPath sub rest
      | _ => none

/-- Join a segment path with the default separator. -/
def renderPath : List String → String
  | [] => ""
  | [s] => s
  | s :: rest => s ++ "." ++ renderPath rest

/-- A map key that takes part in exact round-tripping under the default
configuration: non-empty, free of the separator and of bracket notation, and
not parsed as an integer by `strconv.Atoi`. -/
def goodKey (s : String) : Bool :=
  !(s = "") && !s.toList.contains '.' && !s.toList.contains '[' && (atoi s).isNone

mutual

/-- Documents that flatten/unflatten exactly under the default configuration:
every map has `goodKey` keys without duplicates and every sequence is empty. -/
def flatSafeV : Value → Bool
  | .vobj m => flatSafeE m
  | .varr l => l.isEmpty
  | _ => true

/-- `flatSafeV` for map entries. -/
def flatSafeE : EntryList → Bool
  | .nil => true
  | .cons k v rest =>
      goodKey k && !rest.containsKey k && flatSafeV v && flatSafeE rest

end

mutual

/-- Documents containing no sequence anywhere (maps and scalars only). -/
def noSeqV : Value → Bool
  | .vobj m => noSeqE m
  | .varr _ => false
  | _ => true

/-- `noSeqV` for map entries. -/
def noSeqE : EntryList → Bool
  | .nil => true
  | .cons _ v rest => noSeqV v && noSeqE rest

end

mutual

/-- Well-formed Go data: no map carries a duplicate key. -/
def wfV : Value → Bool
  | .vobj m => wfE m
  | .varr l => wfL l
  | _ => true

/-- `wfV` for map entries. -/
def wfE : EntryList → Bool
  | .nil => true
  | .cons k v rest => !rest.containsKey k && wfV v && wfE rest

/-- `wfV` for slice elements. -/
def wfL : ValueList → Bool
  | .nil => true
  | .cons v rest => wfV v && wfL rest

end

/-- A value that the flattener stores as a leaf: a scalar or an empty
container. -/
def isLeafV : Value → Bool
  | .vobj m => m.isEmpty
  | .varr l => l.isEmpty
  | _ => true

/-- Map entries whose values are all scalars. -/
def scalarsE : EntryList → Bool :=
  EntryList.allP (fun _ v =>
    match v with
    | .vobj _ => false
    | .varr _ => false
    | _ => true)

/-- The leaves of a document made of nested maps and leaf values, as
(segment path, leaf value) pairs in depth-first document order.  On
`flatSafeE` documents this is exactly what the flattener emits. -/
def leavesE : EntryList → List (List String × Value)
  | .nil => []
  | .cons k (Value.vobj (EntryList.cons k2 v2 mrest)) rest =>
      (leavesE (EntryList.cons k2 v2 mrest)).map (fun pv => (k :: pv.1, pv.2)) ++ leavesE rest
  | .cons k v rest => ([k], v) :: leavesE rest

/-- Insert one value at a segment path, creating nested maps along the way
(the pure meaning of `assignToNested` when no segment is numeric). -/
def insertPath : EntryList → List String → Value → EntryList
  | obj, [], _ => obj
  | obj, [p], v => obj.setKey p v
  | obj, p :: rest, v =>
      let nextObj : EntryList :=
        match obj.lookupKey p with
        | some (.vobj m) => m
        | _ => .nil
      obj.setKey p (Value.vobj (insertPath nextObj rest v))

/-- Fold `insertPath` over a list of (path, value) pairs. -/
def insertAll : EntryList → List (List String × Value) → EntryList
  | res, [] => res
  | res, (p, v) :: rest => insertAll (insertPath res p v) rest

/-- Whether an optional map value holds an `OrderedMap`. -/
def objValued : Option Value → Bool
  | some (.vobj _) => true
  | _ => false

/-- Join a segment path under a key prefix, as the flattener renders keys
under the default configuration. -/
def renderKey (pre : String) (p : List String) : String :=
  if pre = "" then renderPath p else pre ++ "." ++ renderPath p

/-- Rendered flat entries of a leaf list under a key prefix. -/
def renderLeaves (pre : String) (ls : List (List String × Value)) : List (String × Value) :=
  ls.map (fun pv => (renderKey pre pv.1, pv.2))

/-- The map stored in an optional value, or the empty map (the shape of
`assignToNested`'s descend-into-child step). -/
def asMap : Option Value → EntryList
  | some (Value.vobj m) => m
  | _ => .nil

/-- The tail of a rendered path at character level: each further segment is
preceded by the separator dot. -/
def joinTailChars : List String → List Char
  | [] => []
  | s :: rest => '.' :: s.toList ++ joinTailChars rest

/-- A value that is not a non-empty map. -/
def notNeObj : Value → Bool
  | .vobj (.cons _ _ _) => false
  | _ => true

/-- No value of the flat map is a non-empty map. -/
def noNeObjValues : EntryList → Bool :=
  EntryList.allP (fun _ v => notNeObj v)

-- concrete sanity evaluations of the engine on the documents examined below
-- C1: gapped numeric keys
example :
    UnflattenMap (E [("a.0", Value.vstr "x"), ("a.2", Value.vstr "y")]) =
      some (E [("a", Value.varr (A [Value.vobj .nil, Value.vnull, Value.vobj .nil]))]) := rfl
-- C3: negative index panics
example : UnflattenMap (E [("a.-1.b", Value.vstr "x")]) = none := rfl
-- C4: maxDepth 1
example :
    FlattenMapWithOptions
      (E [("a", Value.vobj (E [("b", Value.vobj (E [("c", Value.vnum 1)]))]))]) ""
      { DefaultFlattenOptions with MaxDepth := 1 } =
      E [("a.b", Value.vobj (E [("c", Value.vnum 1)]))] := rfl
-- C5 flatten
example :
    FlattenMap
      (E [("person", Value.vobj (E [("name", Value.vstr "John Doe"),
        ("addresses", Value.varr (A [Value.vobj (E [("type", Value.vstr "home"),
          ("street", Value.vstr "123 Main St")])]))]))]) "" =
      E [("person.name", Value.vstr "John Doe"),
         ("person.addresses.0.type", Value.vstr "home"),
         ("person.addresses.0.street", Value.vstr "123 Main St")] := rfl
-- C5 unflatten back
example :
    UnflattenMap
      (E [("person.name", Value.vstr "John Doe"),
          ("person.addresses.0.type", Value.vstr "home"),
          ("person.addresses.0.street", Value.vstr "123 Main St")]) =
      some (E [("person", Value.vobj (E [("name", Value.vstr "John Doe"),
        ("addresses", Value.varr (A [Value.vobj (E [("type", Value.vstr "home"),
          ("street", Value.vstr "123 Main St")])]))]))]) := rfl
-- C6 bracket vs dot
example :
    UnflattenMap (E [("user[0].name", Value.vstr "A")]) =
      UnflattenMap (E [("user.0.name", Value.vstr "A")]) := rfl
example :
    UnflattenMap (E [("user[0].name", Value.vstr "A")]) =
      some (E [("user", Value.varr (A [Value.vobj (E [("name", Value.vstr "A")])]))]) := rfl
-- C7: triple-nested array leaks a non-empty sequence
example :
    FlattenMap (E [("a", Value.varr (A [Value.varr (A [Value.varr (A [Value.vnum 1])])]))]) "" =
      E [("a.0.0", Value.varr (A [Value.vnum 1]))] := rfl
-- C8: empty sequence under a numeric key becomes an empty map (not a sequence)
example :
    UnflattenMap (FlattenMap (E [("a", Value.vobj (E [("0", Value.varr .nil)]))]) "") =
      some (E [("a", Value.varr (A [Value.vobj .nil]))]) := rfl
-- C2 counterexample input evaluates the same way
example :
    FlattenMap (E [("a", Value.vobj (E [("0", Value.vstr "x")]))]) "" =
      E [("a.0", Value.vstr "x")] := rfl
example :
    UnflattenMap (E [("a.0", Value.vstr "x")]) =
      some (E [("a", Value.varr (A [Value.vobj .nil]))]) := rfl

/-! ## Supporting lemmas -/

theorem drainResults_spec (ok : String → Bool) :
    ∀ (files : List String) (s e : Nat) (w : List String),
      drainResults files ok s e w =
        (s + (files.filter (fun f => ok f)).length,
         e + (files.filter (fun f => !ok f)).length,
         w.reverse ++ files.filter (fun f => ok f)) := by
  intro files
  induction files with
  | nil => intro s e w; simp [drainResults]
  | cons f rest ih =>
      intro s e w
      by_cases h : ok f = true
      · simp [drainResults, h, ih, List.filter_cons]
        omega
      · simp at h
        simp [drainResults, h, ih, List.filter_cons]
        omega

/-- Structural induction along the spine of an `EntryList` (the `induction`
tactic does not handle the mutual inductive directly). -/
theorem EntryList.spineInduction {motive : EntryList → Prop} (nil : motive .nil)
    (cons : ∀ k v rest, motive rest → motive (.cons k v rest)) : ∀ m, motive m
  | .nil => nil
  | .cons k v rest => cons k v rest (EntryList.spineInduction nil cons rest)

/-- Structural induction along the spine of a `ValueList`. -/
theorem ValueList.spineInductionList {motive : ValueList → Prop} (nil : motive .nil)
    (cons : ∀ v rest, motive rest → motive (.cons v rest)) : ∀ l, motive l
  | .nil => nil
  | .cons v rest => cons v rest (ValueList.spineInductionList nil cons rest)

theorem append_nil_right (m : EntryList) : m.append .nil = m := by
  induction m using EntryList.spineInduction with
  | nil => rfl
  | cons k v rest ih => simp [EntryList.append, ih]

theorem append_assoc_entries (a b c : EntryList) :
    (a.append b).append c = a.append (b.append c) := by
  induction a using EntryList.spineInduction with
  | nil => rfl
  | cons k v rest ih => simp [EntryList.append, ih]

theorem E_append (l1 l2 : List (String × Value)) : E (l1 ++ l2) = (E l1).append (E l2) := by
  induction l1 with
  | nil => rfl
  | cons kv rest ih => simp [E, EntryList.append, ih]

theorem lookup_append (a b : EntryList) (k : String) :
    (a.append b).lookupKey k =
      (match a.lookupKey k with
       | some v => some v
       | none => b.lookupKey k) := by
  induction a using EntryList.spineInduction with
  | nil => simp [EntryList.append, EntryList.lookupKey]
  | cons k0 v0 rest ih =>
      by_cases h : k0 = k
      · simp [EntryList.append, EntryList.lookupKey, h]
      · simp [EntryList.append, EntryList.lookupKey, h, ih]

theorem containsKey_append (a b : EntryList) (k : String) :
    (a.append b).containsKey k = (a.containsKey k || b.containsKey k) := by
  rw [EntryList.containsKey, lookup_append]
  rcases h : a.lookupKey k with _ | v
  · simp [EntryList.containsKey, h]
  · simp [EntryList.containsKey, h]

theorem setKey_fresh (m : EntryList) (k : String) (v : Value)
    (h : m.containsKey k = false) : m.setKey k v = m.append (.cons k v .nil) := by
  induction m using EntryList.spineInduction with
  | nil => rfl
  | cons k0 v0 rest ih =>
      rw [EntryList.containsKey, EntryList.lookupKey] at h
      by_cases h0 : k0 = k
      · simp [h0] at h
      · rw [if_neg h0] at h
        simp only [EntryList.setKey, if_neg h0, EntryList.append]
        rw [ih h]

theorem setKey_setKey (m : EntryList) (k : String) (v w : Value) :
    (m.setKey k v).setKey k w = m.setKey k w := by
  induction m using EntryList.spineInduction with
  | nil => simp [EntryList.setKey]
  | cons k0 v0 rest ih =>
      by_cases h0 : k0 = k
      · simp [EntryList.setKey, h0]
      · simp [EntryList.setKey, h0, ih]

theorem containsKey_cons_iff (k0 : String) (v0 : Value) (rest : EntryList) (k : String) :
    (EntryList.cons k0 v0 rest).containsKey k = true ↔
      (k0 = k ∨ rest.containsKey k = true) := by
  by_cases h : k0 = k
  · simp [EntryList.containsKey, EntryList.lookupKey, h]
  · simp [EntryList.containsKey, EntryList.lookupKey, h]

theorem sizeV_pos (v : Value) : 1 ≤ sizeV v := by
  cases v <;> simp [sizeV]

theorem sizeE_pos (m : EntryList) : 1 ≤ sizeE m := by
  cases m <;> simp [sizeE]

theorem vl_isEmpty_nil (l : ValueList) (h : l.isEmpty = true) : l = .nil := by
  cases l with
  | nil => rfl
  | cons v rest => simp [ValueList.isEmpty] at h

theorem convGo_nil (fuel : Nat) : convGo fuel .nil = some .nil := by
  cases fuel <;> simp [convGo]

theorem convGo_scalars (m : EntryList) :
    ∀ fuel : Nat, scalarsE m = true → m.length ≤ fuel → convGo fuel m = some m := by
  induction m using EntryList.spineInduction with
  | nil => intro fuel _ _; exact convGo_nil fuel
  | cons k v rest ih =>
      intro fuel hs hlen
      have hlen1 : 1 ≤ fuel := by
        simp [EntryList.length] at hlen
        omega
      obtain ⟨f, rfl⟩ : ∃ f, fuel = f + 1 := ⟨fuel - 1, by omega⟩
      have hs2 := hs
      simp [scalarsE, EntryList.allP] at hs2
      have hrest : convGo f rest = some rest := by
        apply ih f
        · simp [scalarsE]; exact hs2.2
        · simp [EntryList.length] at hlen; omega
      cases v with
      | vobj m2 => simp at hs2
      | varr l => simp at hs2
      | vnull => simp [convGo, hrest]
      | vbool b => simp [convGo, hrest]
      | vnum n => simp [convGo, hrest]
      | vstr s => simp [convGo, hrest]

theorem allP_keys (q : String → Bool) (m : EntryList) :
    EntryList.allP (fun k _ => q k) m = true ↔ ∀ k ∈ m.keysOf, q k = true := by
  induction m using EntryList.spineInduction with
  | nil => simp [EntryList.allP, EntryList.keysOf]
  | cons k v rest ih => simp [EntryList.allP, EntryList.keysOf, ih]

theorem convMaxIdxAux_ge (m : EntryList) : ∀ acc : Int, acc ≤ convMaxIdxAux m acc := by
  induction m using EntryList.spineInduction with
  | nil => intro acc; simp [convMaxIdxAux]
  | cons k v rest ih =>
      intro acc
      refine le_trans ?_ (ih _)
      cases h : atoi k with
      | none => simp
      | some idx => dsimp; split <;> omega

theorem convMaxIdx_ge (m : EntryList) : -1 ≤ convMaxIdx m :=
  convMaxIdxAux_ge m (-1)

theorem entry_isEmpty_nil (m : EntryList) (h : m.isEmpty = true) : m = .nil := by
  cases m with
  | nil => rfl
  | cons k v rest => simp [EntryList.isEmpty] at h

theorem lookup_setKey_self (m : EntryList) (k : String) (v : Value) :
    (m.setKey k v).lookupKey k = some v := by
  induction m using EntryList.spineInduction with
  | nil => simp [EntryList.setKey, EntryList.lookupKey]
  | cons k0 v0 rest ih =>
      by_cases h : k0 = k
      · simp [EntryList.setKey, EntryList.lookupKey, h]
      · simp [EntryList.setKey, EntryList.lookupKey, h, ih]

theorem lookup_setKey_ne (m : EntryList) (k k' : String) (v : Value) (h : k' ≠ k) :
    (m.setKey k v).lookupKey k' = m.lookupKey k' := by
  have hkk : ¬ k = k' := fun hh => h hh.symm
  induction m using EntryList.spineInduction with
  | nil => simp [EntryList.setKey, EntryList.lookupKey, hkk]
  | cons k0 v0 rest ih =>
      by_cases h0 : k0 = k
      · have h0' : ¬ k0 = k' := by rw [h0]; exact hkk
        simp [EntryList.setKey, EntryList.lookupKey, h0, hkk]
      · simp only [EntryList.setKey, if_neg h0, EntryList.lookupKey]
        by_cases h1 : k0 = k'
        · simp [h1]
        · simp [h1, ih]

theorem lookup_erase_ne (m : EntryList) (k k' : String) (h : k' ≠ k) :
    (m.eraseKey k).lookupKey k' = m.lookupKey k' := by
  have hkk : ¬ k = k' := fun hh => h hh.symm
  induction m using EntryList.spineInduction with
  | nil => simp [EntryList.eraseKey]
  | cons k0 v0 rest ih =>
      by_cases h0 : k0 = k
      · have h0' : ¬ k0 = k' := by rw [h0]; exact hkk
        simp [EntryList.eraseKey, EntryList.lookupKey, h0, hkk]
      · simp only [EntryList.eraseKey, if_neg h0, EntryList.lookupKey]
        by_cases h1 : k0 = k'
        · simp [h1]
        · simp [h1, ih]

theorem containsKey_false_lookup (m : EntryList) (k : String)
    (h : m.containsKey k = false) : m.lookupKey k = none := by
  rcases hm : m.lookupKey k with _ | v
  · rfl
  · rw [EntryList.containsKey, hm] at h
    simp at h

theorem wfE_cons_parts (k0 : String) (v0 : Value) (rest : EntryList)
    (hwf : wfE (.cons k0 v0 rest) = true) :
    rest.containsKey k0 = false ∧ wfV v0 = true ∧ wfE rest = true := by
  simp only [wfE, Bool.and_eq_true, Bool.not_eq_true'] at hwf
  exact ⟨hwf.1.1, hwf.1.2, hwf.2⟩

theorem lookup_erase_self (m : EntryList) (k : String) (hwf : wfE m = true) :
    (m.eraseKey k).lookupKey k = none := by
  induction m using EntryList.spineInduction with
  | nil => simp [EntryList.eraseKey, EntryList.lookupKey]
  | cons k0 v0 rest ih =>
      obtain ⟨hc, _, hrest⟩ := wfE_cons_parts k0 v0 rest hwf
      by_cases h0 : k0 = k
      · subst h0
        simp only [EntryList.eraseKey, if_pos rfl]
        exact containsKey_false_lookup rest k0 hc
      · simp only [EntryList.eraseKey, if_neg h0, EntryList.lookupKey, if_neg h0]
        exact ih hrest

theorem wf_lookup_obj (m : EntryList) (k : String) (sub : EntryList)
    (hwf : wfE m = true) (h : m.lookupKey k = some (Value.vobj sub)) : wfE sub = true := by
  induction m using EntryList.spineInduction with
  | nil => simp [EntryList.lookupKey] at h
  | cons k0 v0 rest ih =>
      obtain ⟨_, hv, hrest⟩ := wfE_cons_parts k0 v0 rest hwf
      by_cases h0 : k0 = k
      · rw [EntryList.lookupKey, if_pos h0] at h
        have hveq : v0 = Value.vobj sub := Option.some.inj h
        subst hveq
        simpa [wfV] using hv
      · rw [EntryList.lookupKey, if_neg h0] at h
        exact ih hrest h

theorem splitLastAux_spec :
    ∀ (ys : List String) (x : String),
      x :: ys = (splitLastAux x ys).1 ++ [(splitLastAux x ys).2] := by
  intro ys
  induction ys with
  | nil => intro x; simp [splitLastAux]
  | cons y rest ih =>
      intro x
      simp only [splitLastAux]
      have := ih y
      rw [List.cons_append]
      exact congrArg (x :: ·) this

theorem lookupPath_cons (m : EntryList) (k : String) (l : List String) (hl : l ≠ []) :
    lookupPath m (k :: l) =
      (match m.lookupKey k with
       | some (Value.vobj sub) => lookupPath sub l
       | _ => none) := by
  match l with
  | [] => exact absurd rfl hl
  | a :: as => rfl

theorem lookupPath_cons_none (m : EntryList) (k : String) (l : List String)
    (hl : l ≠ []) (h : m.lookupKey k = none) : lookupPath m (k :: l) = none := by
  rw [lookupPath_cons m k l hl, h]

theorem lookupPath_cons_obj (m : EntryList) (k : String) (l : List String)
    (hl : l ≠ []) (sub : EntryList) (h : m.lookupKey k = some (Value.vobj sub)) :
    lookupPath m (k :: l) = lookupPath sub l := by
  rw [lookupPath_cons m k l hl, h]

theorem lookupPath_nil_entries (q : List String) (hq : q ≠ []) :
    lookupPath .nil q = none := by
  match q with
  | [] => exact absurd rfl hq
  | [k] => rfl
  | k :: a :: as => rfl

theorem prefix_of_singleton {q : List String} {t : String} (h : q <+: [t]) :
    q = [] ∨ q = [t] := by
  rcases h with ⟨r, hr⟩
  match q with
  | [] => exact Or.inl rfl
  | a :: q' =>
      rw [List.cons_append] at hr
      have h1 : a = t := (List.cons.inj hr).1
      have h2 : q' ++ r = [] := (List.cons.inj hr).2
      have h3 : q' = [] := (List.append_eq_nil.mp h2).1
      subst h1
      subst h3
      exact Or.inr rfl

/-- Core correctness of the navigate/delete/rebuild pipeline of
RemoveKeysFromPath: removing the terminal key along `front ++ [target]`
(1) empties that exact path, (2) leaves every path diverging from it
untouched, and (3) leaves every surviving proper ancestor a non-empty map. -/
theorem remove_master :
    ∀ (front : List String) (m : EntryList) (chain : List (EntryList × String))
      (current : EntryList) (target : String),
      wfE m = true →
      navigateParents m front = some (chain, current) →
      current.containsKey target = true →
      ∀ m2 : EntryList, m2 = rebuildChain chain (current.eraseKey target) →
      lookupPath m2 (front ++ [target]) = none ∧
      (∀ q : List String, q ≠ [] → ¬ (q <+: front ++ [target]) →
        ¬ ((front ++ [target]) <+: q) → lookupPath m2 q = lookupPath m q) ∧
      (∀ q : List String, q ≠ [] → q <+: front ++ [target] → q ≠ front ++ [target] →
        lookupPath m2 q = none ∨
          ∃ sub : EntryList, lookupPath m2 q = some (Value.vobj sub) ∧ sub ≠ .nil) := by
  intro front
  induction front with
  | nil =>
      intro m chain current target hwf hnav hct m2 hm2
      simp only [navigateParents, Option.some.injEq, Prod.mk.injEq] at hnav
      obtain ⟨h1, h2⟩ := hnav
      subst h1
      subst h2
      rw [rebuildChain] at hm2
      subst hm2
      refine ⟨?_, ?_, ?_⟩
      · simpa [lookupPath] using lookup_erase_self m target hwf
      · intro q hq hnp hns
        match q with
        | k :: qs =>
            have hk : k ≠ target := by
              intro hk
              subst hk
              match qs with
              | [] => exact hnp (List.prefix_refl _)
              | a :: as => exact hns ⟨a :: as, rfl⟩
            match qs with
            | [] => simpa [lookupPath] using lookup_erase_ne m target k hk
            | a :: as =>
                rw [lookupPath_cons _ _ _ (by simp), lookupPath_cons _ _ _ (by simp)]
                rw [lookup_erase_ne m target k hk]
      · intro q hq hp hne
        rcases prefix_of_singleton hp with h | h
        · exact absurd h hq
        · exact absurd h hne
  | cons f fs ih =>
      intro m chain current target hwf hnav hct m2 hm2
      rw [navigateParents] at hnav
      rcases hlk : m.lookupKey f with _ | v
      · rw [hlk] at hnav
        simp at hnav
      rcases v with _ | _ | _ | _ | next | _ <;> rw [hlk] at hnav <;> try simp at hnav
      rcases hnav2 : navigateParents next fs with _ | cf
      · rw [hnav2] at hnav
        simp at hnav
      rw [hnav2] at hnav
      simp only [Option.some_bind, Option.some.injEq] at hnav
      obtain ⟨hchain, hcur⟩ : chain = (m, f) :: cf.1 ∧ current = cf.2 := by
        constructor
        · exact congrArg Prod.fst hnav.symm
        · exact congrArg Prod.snd hnav.symm
      subst hchain
      subst hcur
      have hwfnext : wfE next = true := wf_lookup_obj m f next hwf hlk
      have hih := ih next cf.1 cf.2 target hwfnext hnav2 hct
        (rebuildChain cf.1 (cf.2.eraseKey target)) rfl
      obtain ⟨ih1, ih2, ih3⟩ := hih
      set next2 := rebuildChain cf.1 (cf.2.eraseKey target) with hnext2
      rw [rebuildChain] at hm2
      rw [← hnext2] at hm2
      have hfst : fs ++ [target] ≠ [] := by simp
      by_cases hemp : next2.isEmpty = true
      · have hnil : next2 = .nil := entry_isEmpty_nil _ hemp
        rw [if_pos hemp] at hm2
        subst hm2
        refine ⟨?_, ?_, ?_⟩
        · rw [List.cons_append]
          exact lookupPath_cons_none (m.eraseKey f) f _ hfst (lookup_erase_self m f hwf)
        · intro q hq hnp hns
          match q with
          | k :: qs =>
              by_cases hk : k = f
              · subst hk
                have hqs : qs ≠ [] := by
                  intro h
                  subst h
                  exact hnp ⟨fs ++ [target], rfl⟩
                have hqs2 : ¬ (qs <+: fs ++ [target]) := by
                  intro h
                  exact hnp (by rw [List.cons_append]; exact List.cons_prefix_cons.mpr ⟨rfl, h⟩)
                have hqs3 : ¬ ((fs ++ [target]) <+: qs) := by
                  intro h
                  exact hns (by rw [List.cons_append]; exact List.cons_prefix_cons.mpr ⟨rfl, h⟩)
                have h5 := ih2 qs hqs hqs2 hqs3
                rw [hnil] at h5
                rw [lookupPath_nil_entries qs hqs] at h5
                rw [lookupPath_cons_none (m.eraseKey k) k qs hqs (lookup_erase_self m k hwf),
                  lookupPath_cons_obj m k qs hqs next hlk]
                exact h5
              · match qs with
                | [] => simpa [lookupPath] using lookup_erase_ne m f k hk
                | a :: as =>
                    rw [lookupPath_cons _ _ _ (by simp), lookupPath_cons _ _ _ (by simp),
                      lookup_erase_ne m f k hk]
        · intro q hq hp hne
          match q with
          | k :: qs =>
              have hk : k = f := by
                rw [List.cons_append] at hp
                exact (List.cons_prefix_cons.mp hp).1
              subst hk
              match qs with
              | [] =>
                  left
                  simpa [lookupPath] using lookup_erase_self m k hwf
              | a :: as =>
                  left
                  exact lookupPath_cons_none (m.eraseKey k) k _ (by simp) (lookup_erase_self m k hwf)
      · have hne2 : next2 ≠ .nil := by
          intro h
          rw [h] at hemp
          simp [EntryList.isEmpty] at hemp
        rw [if_neg hemp] at hm2
        subst hm2
        refine ⟨?_, ?_, ?_⟩
        · rw [List.cons_append,
            lookupPath_cons_obj (m.setKey f (Value.vobj next2)) f _ hfst next2 (lookup_setKey_self m f (Value.vobj next2))]
          exact ih1
        · intro q hq hnp hns
          match q with
          | k :: qs =>
              by_cases hk : k = f
              · subst hk
                have hqs : qs ≠ [] := by
                  intro h
                  subst h
                  exact hnp ⟨fs ++ [target], rfl⟩
                have hqs2 : ¬ (qs <+: fs ++ [target]) := by
                  intro h
                  exact hnp (by rw [List.cons_append]; exact List.cons_prefix_cons.mpr ⟨rfl, h⟩)
                have hqs3 : ¬ ((fs ++ [target]) <+: qs) := by
                  intro h
                  exact hns (by rw [List.cons_append]; exact List.cons_prefix_cons.mpr ⟨rfl, h⟩)
                rw [lookupPath_cons_obj (m.setKey k (Value.vobj next2)) k qs hqs next2
                    (lookup_setKey_self m k (Value.vobj next2)),
                  lookupPath_cons_obj m k qs hqs next hlk]
                exact ih2 qs hqs hqs2 hqs3
              · match qs with
                | [] => simpa [lookupPath] using lookup_setKey_ne m f k (Value.vobj next2) hk
                | a :: as =>
                    rw [lookupPath_cons _ _ _ (by simp), lookupPath_cons _ _ _ (by simp),
                      lookup_setKey_ne m f k (Value.vobj next2) hk]
        · intro q hq hp hne
          match q with
          | k :: qs =>
              have hk : k = f := by
                rw [List.cons_append] at hp
                exact (List.cons_prefix_cons.mp hp).1
              subst hk
              match qs with
              | [] =>
                  right
                  refine ⟨next2, ?_, hne2⟩
                  simpa [lookupPath] using lookup_setKey_self m k (Value.vobj next2)
              | a :: as =>
                  have hqs : (a :: as : List String) ≠ [] := by simp
                  have hp2 : (a :: as) <+: fs ++ [target] := by
                    rw [List.cons_append] at hp
                    exact (List.cons_prefix_cons.mp hp).2
                  have hne2' : (a :: as) ≠ fs ++ [target] := by
                    intro h
                    exact hne (by rw [List.cons_append, h])
                  rw [lookupPath_cons_obj (m.setKey k (Value.vobj next2)) k (a :: as) hqs next2
                    (lookup_setKey_self m k (Value.vobj next2))]
                  exact ih3 (a :: as) hqs hp2 hne2'

theorem noNeObj_setKey (res : EntryList) (k : String) (v : Value) (hv : notNeObj v = true) :
    noNeObjValues res = true → noNeObjValues (EntryList.setKey res k v) = true := by
  induction res using EntryList.spineInduction with
  | nil => intro _; simp [EntryList.setKey, noNeObjValues, EntryList.allP, hv]
  | cons k0 v0 rest ih =>
      intro hres
      simp only [noNeObjValues, EntryList.allP, Bool.and_eq_true] at hres
      by_cases hk : k0 = k
      · simp [EntryList.setKey, hk, noNeObjValues, EntryList.allP, hv, hres.2]
      · simp only [EntryList.setKey, if_neg hk]
        simp only [noNeObjValues, EntryList.allP, Bool.and_eq_true]
        exact ⟨hres.1, ih hres.2⟩

theorem flatten_noNeObj (fuel : Nat) :
    (∀ (obj : EntryList) (pre : String) (res : EntryList) (opts : FlattenOptions) (depth : Int),
      opts.MaxDepth < 0 → noNeObjValues res = true →
      noNeObjValues (flattenGo fuel obj pre res opts depth) = true) ∧
    (∀ (obj : EntryList) (pre : String) (res : EntryList) (opts : FlattenOptions) (depth : Int),
      opts.MaxDepth < 0 → noNeObjValues res = true →
      noNeObjValues (flattenEntriesGo fuel obj pre res opts depth) = true) ∧
    (∀ (items : ValueList) (i : Nat) (fullKey : String) (res : EntryList)
        (opts : FlattenOptions) (depth : Int),
      opts.MaxDepth < 0 → noNeObjValues res = true →
      noNeObjValues (flattenItemsGo fuel items i fullKey res opts depth) = true) ∧
    (∀ (items : ValueList) (j : Nat) (indexedKey : String) (res : EntryList)
        (opts : FlattenOptions) (depth : Int),
      opts.MaxDepth < 0 → noNeObjValues res = true →
      noNeObjValues (flattenNestedGo fuel items j indexedKey res opts depth) = true) := by
  induction fuel with
  | zero =>
      refine ⟨?_, ?_, ?_, ?_⟩ <;> intro _ _ _ _ _ _ hres <;>
        simpa [flattenGo, flattenEntriesGo, flattenItemsGo, flattenNestedGo] using hres
  | succ f ih =>
      obtain ⟨ihGo, ihE, ihI, ihN⟩ := ih
      refine ⟨?_, ?_, ?_, ?_⟩
      · intro obj pre res opts depth hmd hres
        have hcond : ¬ (0 ≤ opts.MaxDepth ∧ opts.MaxDepth < depth) := by
          rintro ⟨h1, _⟩
          omega
        simp only [flattenGo, if_neg hcond]
        exact ihE obj pre res opts depth hmd hres
      · intro obj pre res opts depth hmd hres
        cases obj with
        | nil => simpa [flattenEntriesGo] using hres
        | cons key value rest =>
            cases value with
            | vnull =>
                simp only [flattenEntriesGo]
                exact ihE _ _ _ _ _ hmd (noNeObj_setKey _ _ _ rfl hres)
            | vbool b =>
                simp only [flattenEntriesGo]
                exact ihE _ _ _ _ _ hmd (noNeObj_setKey _ _ _ rfl hres)
            | vnum n =>
                simp only [flattenEntriesGo]
                exact ihE _ _ _ _ _ hmd (noNeObj_setKey _ _ _ rfl hres)
            | vstr s =>
                simp only [flattenEntriesGo]
                exact ihE _ _ _ _ _ hmd (noNeObj_setKey _ _ _ rfl hres)
            | vobj m =>
                simp only [flattenEntriesGo]
                by_cases he : m.isEmpty = true
                · rw [entry_isEmpty_nil m he] at *
                  simp only [EntryList.isEmpty, if_true]
                  exact ihE _ _ _ _ _ hmd (noNeObj_setKey _ _ _ rfl hres)
                · simp only [he, Bool.false_eq_true, if_false]
                  exact ihE _ _ _ _ _ hmd (ihGo _ _ _ _ _ hmd hres)
            | varr items =>
                simp only [flattenEntriesGo]
                by_cases he : items.isEmpty = true
                · simp only [he, if_true]
                  exact ihE _ _ _ _ _ hmd (noNeObj_setKey _ _ _ rfl hres)
                · simp only [he, Bool.false_eq_true, if_false]
                  by_cases hb : opts.IncludeArrayIndices = true
                  · simp only [hb, if_true]
                    exact ihE _ _ _ _ _ hmd (ihI _ _ _ _ _ _ hmd hres)
                  · simp only [hb, Bool.false_eq_true, if_false]
                    exact ihE _ _ _ _ _ hmd (noNeObj_setKey _ _ _ rfl hres)
      · intro items i fullKey res opts depth hmd hres
        cases items with
        | nil => simpa [flattenItemsGo] using hres
        | cons item rest =>
            cases item with
            | vnull =>
                simp only [flattenItemsGo]
                exact ihI _ _ _ _ _ _ hmd (noNeObj_setKey _ _ _ rfl hres)
            | vbool b =>
                simp only [flattenItemsGo]
                exact ihI _ _ _ _ _ _ hmd (noNeObj_setKey _ _ _ rfl hres)
            | vnum n =>
                simp only [flattenItemsGo]
                exact ihI _ _ _ _ _ _ hmd (noNeObj_setKey _ _ _ rfl hres)
            | vstr s =>
                simp only [flattenItemsGo]
                exact ihI _ _ _ _ _ _ hmd (noNeObj_setKey _ _ _ rfl hres)
            | vobj m =>
                simp only [flattenItemsGo]
                by_cases he : m.isEmpty = true
                · rw [entry_isEmpty_nil m he] at *
                  simp only [EntryList.isEmpty, if_true]
                  exact ihI _ _ _ _ _ _ hmd (noNeObj_setKey _ _ _ rfl hres)
                · simp only [he, Bool.false_eq_true, if_false]
                  exact ihI _ _ _ _ _ _ hmd (ihGo _ _ _ _ _ hmd hres)
            | varr inner =>
                simp only [flattenItemsGo]
                by_cases he : inner.isEmpty = true
                · simp only [he, if_true]
                  exact ihI _ _ _ _ _ _ hmd (noNeObj_setKey _ _ _ rfl hres)
                · simp only [he, Bool.false_eq_true, if_false]
                  by_cases hb : opts.IncludeArrayIndices = true
                  · simp only [hb, if_true]
                    exact ihI _ _ _ _ _ _ hmd (ihN _ _ _ _ _ _ hmd hres)
                  · simp only [hb, Bool.false_eq_true, if_false]
                    exact ihI _ _ _ _ _ _ hmd (noNeObj_setKey _ _ _ rfl hres)
      · intro items j indexedKey res opts depth hmd hres
        cases items with
        | nil => simpa [flattenNestedGo] using hres
        | cons item rest =>
            cases item with
            | vnull =>
                simp only [flattenNestedGo]
                exact ihN _ _ _ _ _ _ hmd (noNeObj_setKey _ _ _ rfl hres)
            | vbool b =>
                simp only [flattenNestedGo]
                exact ihN _ _ _ _ _ _ hmd (noNeObj_setKey _ _ _ rfl hres)
            | vnum n =>
                simp only [flattenNestedGo]
                exact ihN _ _ _ _ _ _ hmd (noNeObj_setKey _ _ _ rfl hres)
            | vstr s =>
                simp only [flattenNestedGo]
                exact ihN _ _ _ _ _ _ hmd (noNeObj_setKey _ _ _ rfl hres)
            | vobj m =>
                simp only [flattenNestedGo]
                by_cases he : m.isEmpty = true
                · rw [entry_isEmpty_nil m he] at *
                  simp only [EntryList.isEmpty, if_true]
                  exact ihN _ _ _ _ _ _ hmd (noNeObj_setKey _ _ _ rfl hres)
                · simp only [he, Bool.false_eq_true, if_false]
                  exact ihN _ _ _ _ _ _ hmd (ihGo _ _ _ _ _ hmd hres)
            | varr inner =>
                simp only [flattenNestedGo]
                exact ihN _ _ _ _ _ _ hmd (noNeObj_setKey _ _ _ rfl hres)

theorem str_eq_of_data {a b : String} (h : a.data = b.data) : a = b := by
  cases a
  cases b
  exact congrArg String.mk h

theorem str_toList_data (s : String) : s.toList = s.data := rfl

theorem strmk_toList (s : String) : String.mk s.toList = s := rfl

theorem str_toList_append (a b : String) : (a ++ b).toList = a.toList ++ b.toList := by
  simp [str_toList_data, String.data_append]

theorem str_length_toList (s : String) : s.length = s.toList.length := rfl

theorem char_not_mem_of_contains_false (cs : List Char) (c : Char)
    (h : cs.contains c = false) : c ∉ cs := by
  induction cs with
  | nil => simp
  | cons d rest ih =>
      simp only [List.contains_cons, Bool.or_eq_false_iff] at h
      intro hmem
      rcases List.mem_cons.mp hmem with h1 | h1
      · subst h1
        simp at h
      · exact ih h.2 h1

theorem goodKey_parts (s : String) (h : goodKey s = true) :
    s ≠ "" ∧ '.' ∉ s.toList ∧ '[' ∉ s.toList ∧ atoi s = none := by
  simp only [goodKey, Bool.and_eq_true, Bool.not_eq_true'] at h
  obtain ⟨⟨⟨h1, h2⟩, h3⟩, h4⟩ := h
  refine ⟨?_, ?_, ?_, ?_⟩
  · intro hh
    rw [hh] at h1
    simp at h1
  · exact char_not_mem_of_contains_false _ _ h2
  · exact char_not_mem_of_contains_false _ _ h3
  · exact Option.isNone_iff_eq_none.mp h4

theorem isPrefixOf_dot (c : Char) (l : List Char) :
    List.isPrefixOf ['.'] (c :: l) = ('.' == c) := by
  simp [List.isPrefixOf]

theorem splitAux_cons (sep : List Char) (f : Nat) (c : Char) (l acc : List Char) :
    splitAux sep (f + 1) (c :: l) acc =
      if sep.isPrefixOf (c :: l) then
        acc.reverse :: splitAux sep f (List.drop sep.length (c :: l)) []
      else splitAux sep f l (c :: acc) := rfl

theorem renderPath_cons (s t : String) (more : List String) :
    renderPath (s :: t :: more) = s ++ "." ++ renderPath (t :: more) := rfl

theorem splitAux_spec :
    ∀ (fuel : Nat) (s : List Char) (segs : List String) (acc : List Char),
      '.' ∉ s → (∀ t ∈ segs, '.' ∉ t.toList) →
      s.length + (joinTailChars segs).length ≤ fuel →
      splitAux ['.'] fuel (s ++ joinTailChars segs) acc =
        (acc.reverse ++ s) :: segs.map String.toList := by
  intro fuel
  induction fuel with
  | zero =>
      intro s segs acc hs hsegs hlen
      match s, segs with
      | [], [] => simp [splitAux, joinTailChars]
      | [], t :: rest => simp [joinTailChars] at hlen
      | c :: s2, _ => simp at hlen
  | succ f ih =>
      intro s segs acc hs hsegs hlen
      match s with
      | c :: s2 =>
          have hc : c ≠ '.' := by
            intro hh
            exact hs (by rw [hh]; exact List.mem_cons_self _ _)
          have hbeq : (('.' : Char) == c) = false := by
            refine beq_eq_false_iff_ne.mpr ?_
            intro hh
            exact hc hh.symm
          rw [List.cons_append, splitAux_cons, isPrefixOf_dot, hbeq]
          simp only [Bool.false_eq_true, if_false]
          rw [ih s2 segs (c :: acc) (fun hx => hs (List.mem_cons_of_mem _ hx)) hsegs
            (by simp at hlen ⊢; omega)]
          simp
      | [] =>
          match segs with
          | [] => simp [splitAux, joinTailChars]
          | t :: rest =>
              rw [List.nil_append, joinTailChars, List.cons_append, splitAux_cons, isPrefixOf_dot]
              have : (('.' : Char) == '.') = true := by simp
              rw [this]
              simp only [if_true, List.length_cons, List.length_nil, List.drop_succ_cons,
                List.drop_zero]
              have hlen2 : t.toList.length + (joinTailChars rest).length ≤ f := by
                rw [joinTailChars, List.cons_append] at hlen
                simp only [List.length_nil, List.length_cons, List.length_append] at hlen
                omega
              rw [ih t.toList rest [] (hsegs t (List.mem_cons_self _ _))
                (fun x hx => hsegs x (List.mem_cons_of_mem _ hx)) hlen2]
              simp

theorem renderPath_toList (p : List String) (s : String) :
    (renderPath (s :: p)).toList = s.toList ++ joinTailChars p := by
  induction p generalizing s with
  | nil => simp [renderPath, joinTailChars]
  | cons t more ih =>
      rw [renderPath_cons, str_toList_append, str_toList_append, ih t]
      simp [joinTailChars, str_toList_data]

theorem map_mk_toList (l : List String) : (l.map String.toList).map String.mk = l := by
  induction l with
  | nil => rfl
  | cons s rest ih => simp [ih, strmk_toList]

theorem splitGo_renderPath (p : List String) (hp : p ≠ [])
    (hgood : ∀ s ∈ p, goodKey s = true) : splitGo (renderPath p) "." = p := by
  match p with
  | s :: rest =>
      have hdot : ∀ t ∈ s :: rest, '.' ∉ t.toList := by
        intro t ht
        exact (goodKey_parts t (hgood t ht)).2.1
      rw [splitGo, if_neg (by decide)]
      have hlist : (renderPath (s :: rest)).toList = s.toList ++ joinTailChars rest :=
        renderPath_toList rest s
      rw [show ("." : String).toList = ['.'] from rfl, hlist]
      rw [splitAux_spec ((renderPath (s :: rest)).length) s.toList rest []
        (hdot s (List.mem_cons_self _ _))
        (fun t ht => hdot t (List.mem_cons_of_mem _ ht))
        (by rw [str_length_toList, hlist]; simp)]
      simp only [List.reverse_nil, List.nil_append]
      rw [show (s.toList :: rest.map String.toList) = (s :: rest).map String.toList from rfl]
      exact map_mk_toList (s :: rest)

theorem takeWhile_notdot_all (cs : List Char) (h : ∀ c ∈ cs, c ≠ '.') :
    cs.takeWhile (fun c => c != '.') = cs := by
  induction cs with
  | nil => rfl
  | cons d rest ih =>
      have hd : (d != '.') = true := by
        simp [h d (List.mem_cons_self _ _)]
      simp only [List.takeWhile_cons, hd, if_true]
      rw [ih (fun c hc => h c (List.mem_cons_of_mem _ hc))]

theorem takeWhile_notdot_append (cs l : List Char) (h : ∀ c ∈ cs, c ≠ '.') :
    (cs ++ '.' :: l).takeWhile (fun c => c != '.') = cs := by
  induction cs with
  | nil => simp [List.takeWhile_cons]
  | cons d rest ih =>
      have hd : (d != '.') = true := by
        simp [h d (List.mem_cons_self _ _)]
      simp only [List.cons_append, List.takeWhile_cons, hd, if_true]
      rw [ih (fun c hc => h c (List.mem_cons_of_mem _ hc))]

theorem heads_eq (a b r1 r2 : List Char)
    (ha : ∀ c ∈ a, c ≠ '.') (hb : ∀ c ∈ b, c ≠ '.')
    (h1 : r1 = [] ∨ ∃ t, r1 = '.' :: t) (h2 : r2 = [] ∨ ∃ t, r2 = '.' :: t)
    (heq : a ++ r1 = b ++ r2) : a = b ∧ r1 = r2 := by
  have hta : (a ++ r1).takeWhile (fun c => c != '.') = a := by
    rcases h1 with h | ⟨t, h⟩
    · rw [h, List.append_nil]
      exact takeWhile_notdot_all a ha
    · rw [h]
      exact takeWhile_notdot_append a t ha
  have htb : (b ++ r2).takeWhile (fun c => c != '.') = b := by
    rcases h2 with h | ⟨t, h⟩
    · rw [h, List.append_nil]
      exact takeWhile_notdot_all b hb
    · rw [h]
      exact takeWhile_notdot_append b t hb
  have hab : a = b := by
    rw [← hta, ← htb, heq]
  subst hab
  exact ⟨rfl, List.append_cancel_left heq⟩

theorem jt_shape (p : List String) :
    joinTailChars p = [] ∨ ∃ t, joinTailChars p = '.' :: t := by
  match p with
  | [] => exact Or.inl rfl
  | s :: rest =>
      refine Or.inr ⟨s.toList ++ joinTailChars rest, ?_⟩
      rw [joinTailChars, List.cons_append]

theorem joinTail_inj :
    ∀ (p q : List String), (∀ s ∈ p, goodKey s = true) → (∀ s ∈ q, goodKey s = true) →
      joinTailChars p = joinTailChars q → p = q := by
  intro p
  induction p with
  | nil =>
      intro q _ _ h
      match q with
      | [] => rfl
      | u :: q2 =>
          rw [joinTailChars, joinTailChars, List.cons_append] at h
          exact absurd h (by simp)
  | cons t p2 ih =>
      intro q hgp hgq h
      match q with
      | [] =>
          rw [joinTailChars, joinTailChars, List.cons_append] at h
          exact absurd h (by simp)
      | u :: q2 =>
          rw [joinTailChars, joinTailChars, List.cons_append, List.cons_append] at h
          have h2 := List.cons.inj h
          have hdt : ∀ c ∈ t.toList, c ≠ '.' := by
            intro c hc hcd
            subst hcd
            exact (goodKey_parts t (hgp t (List.mem_cons_self _ _))).2.1 hc
          have hdu : ∀ c ∈ u.toList, c ≠ '.' := by
            intro c hc hcd
            subst hcd
            exact (goodKey_parts u (hgq u (List.mem_cons_self _ _))).2.1 hc
          have hh := heads_eq t.toList u.toList (joinTailChars p2) (joinTailChars q2)
            hdt hdu (jt_shape p2) (jt_shape q2) h2.2
          have htu : t = u := str_eq_of_data hh.1
          have hrest : p2 = q2 :=
            ih q2 (fun s hs => hgp s (List.mem_cons_of_mem _ hs))
              (fun s hs => hgq s (List.mem_cons_of_mem _ hs)) hh.2
          rw [htu, hrest]

theorem renderPath_inj (p q : List String) (hp : p ≠ []) (hq : q ≠ [])
    (hgp : ∀ s ∈ p, goodKey s = true) (hgq : ∀ s ∈ q, goodKey s = true)
    (h : renderPath p = renderPath q) : p = q := by
  match p, q with
  | s :: p2, u :: q2 =>
      have h2 := congrArg String.toList h
      rw [renderPath_toList, renderPath_toList] at h2
      have hds : ∀ c ∈ s.toList, c ≠ '.' := by
        intro c hc hcd
        subst hcd
        exact (goodKey_parts s (hgp s (List.mem_cons_self _ _))).2.1 hc
      have hdu : ∀ c ∈ u.toList, c ≠ '.' := by
        intro c hc hcd
        subst hcd
        exact (goodKey_parts u (hgq u (List.mem_cons_self _ _))).2.1 hc
      have hh := heads_eq s.toList u.toList (joinTailChars p2) (joinTailChars q2)
        hds hdu (jt_shape p2) (jt_shape q2) h2
      have hsu : s = u := str_eq_of_data hh.1
      have hrest : p2 = q2 :=
        joinTail_inj p2 q2 (fun x hx => hgp x (List.mem_cons_of_mem _ hx))
          (fun x hx => hgq x (List.mem_cons_of_mem _ hx)) hh.2
      rw [hsu, hrest]

theorem str_append_dot_ne_empty (s t : String) : s ++ "." ++ t ≠ "" := by
  intro h
  have := congrArg String.data h
  simp [String.data_append] at this

theorem renderKey_empty_pre (p : List String) : renderKey "" p = renderPath p := by
  simp [renderKey]

theorem renderKey_single (pre k : String) :
    renderKey pre [k] = (if pre = "" then k else pre ++ "." ++ k) := by
  rw [renderKey]
  rfl

theorem renderKey_inj (pre : String) (p q : List String) (hp : p ≠ []) (hq : q ≠ [])
    (hgp : ∀ s ∈ p, goodKey s = true) (hgq : ∀ s ∈ q, goodKey s = true)
    (h : renderKey pre p = renderKey pre q) : p = q := by
  by_cases hpre : pre = ""
  · rw [renderKey, if_pos hpre, renderKey, if_pos hpre] at h
    exact renderPath_inj p q hp hq hgp hgq h
  · rw [renderKey, if_neg hpre, renderKey, if_neg hpre] at h
    have h2 := congrArg String.data h
    simp only [String.data_append] at h2
    have h3 := List.append_cancel_left h2
    exact renderPath_inj p q hp hq hgp hgq (str_eq_of_data h3)

theorem renderKey_cons (pre k : String) (p : List String) (hk : goodKey k = true)
    (hp : p ≠ []) : renderKey pre (k :: p) = renderKey (renderKey pre [k]) p := by
  have hkne : k ≠ "" := (goodKey_parts k hk).1
  match p with
  | t :: more =>
      by_cases hpre : pre = ""
      · subst hpre
        rw [renderKey, if_pos rfl, renderKey_single, if_pos rfl, renderKey, if_neg hkne]
        exact renderPath_cons k t more
      · rw [renderKey, if_neg hpre, renderKey_single, if_neg hpre, renderKey,
          if_neg (str_append_dot_ne_empty pre k), renderPath_cons]
        refine str_eq_of_data ?_
        simp [String.data_append]

theorem jt_no_bracket (p : List String) (h : ∀ s ∈ p, goodKey s = true) :
    '[' ∉ joinTailChars p := by
  induction p with
  | nil => simp [joinTailChars]
  | cons t rest ih =>
      rw [joinTailChars, List.cons_append]
      intro hmem
      rcases List.mem_cons.mp hmem with h1 | h1
      · exact absurd h1.symm (by decide)
      · rcases List.mem_append.mp h1 with h2 | h2
        · exact (goodKey_parts t (h t (List.mem_cons_self _ _))).2.2.1 h2
        · exact ih (fun s hs => h s (List.mem_cons_of_mem _ hs)) h2

theorem renderPath_no_bracket (p : List String) (hp : p ≠ [])
    (h : ∀ s ∈ p, goodKey s = true) : '[' ∉ (renderPath p).toList := by
  match p with
  | s :: rest =>
      rw [renderPath_toList]
      intro hmem
      rcases List.mem_append.mp hmem with h1 | h1
      · exact (goodKey_parts s (h s (List.mem_cons_self _ _))).2.2.1 h1
      · exact jt_no_bracket rest (fun x hx => h x (List.mem_cons_of_mem _ hx)) h1

theorem convBracketAux_id (sep : List Char) :
    ∀ (fuel : Nat) (cs : List Char), '[' ∉ cs → convBracketAux sep fuel cs = cs := by
  intro fuel
  induction fuel with
  | zero =>
      intro cs _
      match cs with
      | [] => rfl
      | c :: rest => rfl
  | succ f ih =>
      intro cs h
      match cs with
      | [] => rfl
      | c :: rest =>
          have hc : ¬ (c = '[') := by
            intro hh
            exact h (by rw [hh]; exact List.mem_cons_self _ _)
          show (if c = '[' then _ else c :: convBracketAux sep f rest) = c :: rest
          rw [if_neg hc, ih rest (fun hmem => h (List.mem_cons_of_mem _ hmem))]

theorem convertBracketToDot_id (key : String) (h : '[' ∉ key.toList) :
    convertBracketToDot key "." = key := by
  rw [convertBracketToDot, convBracketAux_id _ _ _ h]
  exact strmk_toList key

theorem flatSafeE_cons_parts (k : String) (v : Value) (rest : EntryList)
    (h : flatSafeE (.cons k v rest) = true) :
    goodKey k = true ∧ rest.containsKey k = false ∧ flatSafeV v = true ∧
      flatSafeE rest = true := by
  simp only [flatSafeE, Bool.and_eq_true, Bool.not_eq_true'] at h
  exact ⟨h.1.1.1, h.1.1.2, h.1.2, h.2⟩

theorem notNeObj_false_shape (v : Value) (h : notNeObj v = false) :
    ∃ k2 v2 m2, v = Value.vobj (.cons k2 v2 m2) := by
  cases v with
  | vobj m =>
      cases m with
      | nil => simp [notNeObj] at h
      | cons k2 v2 m2 => exact ⟨k2, v2, m2, rfl⟩
  | vnull => simp [notNeObj] at h
  | vbool b => simp [notNeObj] at h
  | vnum n => simp [notNeObj] at h
  | vstr s => simp [notNeObj] at h
  | varr l => simp [notNeObj] at h

theorem leavesE_cons_obj (k k2 : String) (v2 : Value) (mrest rest : EntryList) :
    leavesE (.cons k (Value.vobj (.cons k2 v2 mrest)) rest) =
      (leavesE (.cons k2 v2 mrest)).map (fun pv => (k :: pv.1, pv.2)) ++ leavesE rest := rfl

theorem leavesE_cons_leaf (k : String) (v : Value) (rest : EntryList)
    (h : notNeObj v = true) :
    leavesE (.cons k v rest) = ([k], v) :: leavesE rest := by
  cases v with
  | vobj m =>
      cases m with
      | nil => rfl
      | cons k2 v2 m2 => simp [notNeObj] at h
  | vnull => rfl
  | vbool b => rfl
  | vnum n => rfl
  | vstr s => rfl
  | varr l => rfl

theorem leaves_mem_rest (k0 : String) (v0 : Value) (rest : EntryList)
    (pv : List String × Value) (h : pv ∈ leavesE rest) :
    pv ∈ leavesE (.cons k0 v0 rest) := by
  by_cases hno : notNeObj v0 = true
  · rw [leavesE_cons_leaf _ _ _ hno]
    exact List.mem_cons_of_mem _ h
  · obtain ⟨k2, v2, m2, hv⟩ := notNeObj_false_shape v0 (by simpa using hno)
    subst hv
    rw [leavesE_cons_obj]
    exact List.mem_append_right _ h

theorem leaves_shape (m : EntryList) :
    ∀ pv ∈ leavesE m, ∃ k' p', pv.1 = k' :: p' ∧ m.containsKey k' = true := by
  induction m using EntryList.spineInduction with
  | nil => intro pv h; simp [leavesE] at h
  | cons k v rest ih =>
      intro pv hmem
      by_cases hno : notNeObj v = true
      · rw [leavesE_cons_leaf _ _ _ hno] at hmem
        rcases List.mem_cons.mp hmem with h1 | h1
        · subst h1
          exact ⟨k, [], rfl, (containsKey_cons_iff k v rest k).mpr (Or.inl rfl)⟩
        · obtain ⟨k', p', hp, hc⟩ := ih pv h1
          exact ⟨k', p', hp, (containsKey_cons_iff k v rest k').mpr (Or.inr hc)⟩
      · obtain ⟨k2, v2, m2, hv⟩ := notNeObj_false_shape v (by simpa using hno)
        subst hv
        rw [leavesE_cons_obj] at hmem
        rcases List.mem_append.mp hmem with h1 | h1
        · obtain ⟨qv, _, hqv⟩ := List.mem_map.mp h1
          refine ⟨k, qv.1, ?_, (containsKey_cons_iff _ _ rest k).mpr (Or.inl rfl)⟩
          rw [← hqv]
        · obtain ⟨k', p', hp, hc⟩ := ih pv h1
          exact ⟨k', p', hp, (containsKey_cons_iff _ _ rest k').mpr (Or.inr hc)⟩

theorem leaves_good :
    ∀ (n : Nat) (m : EntryList), sizeE m ≤ n → flatSafeE m = true →
      ∀ pv ∈ leavesE m, pv.1 ≠ [] ∧ ∀ s ∈ pv.1, goodKey s = true := by
  intro n
  induction n with
  | zero =>
      intro m hsz
      have := sizeE_pos m
      omega
  | succ n ih =>
      intro m hsz hfs pv hmem
      match m with
      | .nil => simp [leavesE] at hmem
      | .cons k v rest =>
          obtain ⟨hgk, hnc, hfv, hfr⟩ := flatSafeE_cons_parts k v rest hfs
          have hszr : sizeE rest ≤ n := by
            rw [sizeE] at hsz
            have := sizeV_pos v
            omega
          by_cases hno : notNeObj v = true
          · rw [leavesE_cons_leaf _ _ _ hno] at hmem
            rcases List.mem_cons.mp hmem with h1 | h1
            · subst h1
              refine ⟨by simp, ?_⟩
              intro s hs
              rcases List.mem_singleton.mp hs with rfl
              exact hgk
            · exact ih rest hszr hfr pv h1
          · obtain ⟨k2, v2, m2, hv⟩ := notNeObj_false_shape v (by simpa using hno)
            subst hv
            rw [leavesE_cons_obj] at hmem
            rcases List.mem_append.mp hmem with h1 | h1
            · obtain ⟨qv, hqmem, hqv⟩ := List.mem_map.mp h1
              have hfm2 : flatSafeE (.cons k2 v2 m2) = true := by
                simpa [flatSafeV] using hfv
              have hszm2 : sizeE (.cons k2 v2 m2) ≤ n := by
                rw [sizeE, sizeV] at hsz
                have := sizeE_pos rest
                omega
              obtain ⟨hq1, hq2⟩ := ih (.cons k2 v2 m2) hszm2 hfm2 qv hqmem
              constructor
              · rw [← hqv]
                simp
              · rw [← hqv]
                intro s hs
                rcases List.mem_cons.mp hs with rfl | hs2
                · exact hgk
                · exact hq2 s hs2
            · exact ih rest hszr hfr pv h1

theorem leaves_nonempty :
    ∀ (n : Nat) (m : EntryList), sizeE m ≤ n → m ≠ .nil → leavesE m ≠ [] := by
  intro n
  induction n with
  | zero =>
      intro m hsz
      have := sizeE_pos m
      omega
  | succ n ih =>
      intro m hsz hne
      match m with
      | .cons k v rest =>
          by_cases hno : notNeObj v = true
          · rw [leavesE_cons_leaf _ _ _ hno]
            simp
          · obtain ⟨k2, v2, m2, hv⟩ := notNeObj_false_shape v (by simpa using hno)
            subst hv
            rw [leavesE_cons_obj]
            have hszm2 : sizeE (.cons k2 v2 m2) ≤ n := by
              rw [sizeE, sizeV] at hsz
              have := sizeE_pos rest
              omega
            have hsub := ih (.cons k2 v2 m2) hszm2 (fun h => EntryList.noConfusion h)
            intro happ
            rcases List.append_eq_nil.mp happ with ⟨h1, _⟩
            exact hsub (List.map_eq_nil.mp h1)

theorem renderLeaves_append (pre : String) (a b : List (List String × Value)) :
    renderLeaves pre (a ++ b) = renderLeaves pre a ++ renderLeaves pre b := by
  simp [renderLeaves]

theorem leaves_keys_nodup :
    ∀ (n : Nat) (m : EntryList) (pre : String), sizeE m ≤ n → flatSafeE m = true →
      ((renderLeaves pre (leavesE m)).map Prod.fst).Nodup := by
  intro n
  induction n with
  | zero =>
      intro m pre hsz
      have := sizeE_pos m
      omega
  | succ n ih =>
      intro m pre hsz hfs
      match m with
      | .nil => simp [leavesE, renderLeaves]
      | .cons k v rest =>
          obtain ⟨hgk, hnc, hfv, hfr⟩ := flatSafeE_cons_parts k v rest hfs
          have hszr : sizeE rest ≤ n := by
            rw [sizeE] at hsz
            have := sizeV_pos v
            omega
          by_cases hno : notNeObj v = true
          · rw [leavesE_cons_leaf _ _ _ hno]
            rw [show renderLeaves pre (([k], v) :: leavesE rest) =
              (renderKey pre [k], v) :: renderLeaves pre (leavesE rest) from rfl]
            rw [List.map_cons]
            refine List.nodup_cons.mpr ⟨?_, ih rest pre hszr hfr⟩
            intro hmem
            simp only [renderLeaves, List.map_map, List.mem_map] at hmem
            obtain ⟨pv, hpv, heq⟩ := hmem
            obtain ⟨k', p', hshape, hcont⟩ := leaves_shape rest pv hpv
            obtain ⟨hpne, hpgood⟩ := leaves_good n rest hszr hfr pv hpv
            have hpatheq : pv.1 = [k] := by
              refine renderKey_inj pre pv.1 [k] hpne (by simp) hpgood ?_ heq
              intro s hs
              rcases List.mem_singleton.mp hs with rfl
              exact hgk
            rw [hshape] at hpatheq
            have hkk : k' = k := (List.cons.inj hpatheq).1
            rw [hkk] at hcont
            rw [hcont] at hnc
            exact Bool.noConfusion hnc
          · obtain ⟨k2, v2, m2, hv⟩ := notNeObj_false_shape v (by simpa using hno)
            subst hv
            have hfm2 : flatSafeE (.cons k2 v2 m2) = true := by
              simpa [flatSafeV] using hfv
            have hszm2 : sizeE (.cons k2 v2 m2) ≤ n := by
              rw [sizeE, sizeV] at hsz
              have := sizeE_pos rest
              omega
            rw [leavesE_cons_obj, renderLeaves_append, List.map_append]
            have heqmap :
                renderLeaves pre ((leavesE (.cons k2 v2 m2)).map (fun pv => (k :: pv.1, pv.2))) =
                  renderLeaves (renderKey pre [k]) (leavesE (.cons k2 v2 m2)) := by
              simp only [renderLeaves, List.map_map]
              refine List.map_congr_left ?_
              intro pv hpv
              obtain ⟨k', p', hshape, _⟩ := leaves_shape _ pv hpv
              have hpne : pv.1 ≠ [] := by
                rw [hshape]
                simp
              simp only [Function.comp]
              rw [renderKey_cons pre k pv.1 hgk hpne]
            refine List.nodup_append.mpr ⟨?_, ih rest pre hszr hfr, ?_⟩
            · rw [heqmap]
              exact ih (.cons k2 v2 m2) (renderKey pre [k]) hszm2 hfm2
            · intro a hmemA hmemB
              rw [heqmap] at hmemA
              simp only [renderLeaves, List.map_map, List.mem_map] at hmemA hmemB
              obtain ⟨qv, hqv, hqveq⟩ := hmemA
              obtain ⟨pw, hpw, hpweq⟩ := hmemB
              obtain ⟨hqne, hqgood⟩ := leaves_good n (.cons k2 v2 m2) hszm2 hfm2 qv hqv
              obtain ⟨k', p', hshape, hcont⟩ := leaves_shape rest pw hpw
              obtain ⟨hwne, hwgood⟩ := leaves_good n rest hszr hfr pw hpw
              have hqa : renderKey (renderKey pre [k]) qv.1 = a := by simpa using hqveq
              have hwa : renderKey pre pw.1 = a := by simpa using hpweq
              have heq2 : renderKey pre (k :: qv.1) = renderKey pre pw.1 := by
                rw [renderKey_cons pre k qv.1 hgk hqne, hqa, hwa]
              have hpatheq : k :: qv.1 = pw.1 := by
                refine renderKey_inj pre _ pw.1 (by simp) hwne ?_ hwgood heq2
                intro s hs
                rcases List.mem_cons.mp hs with rfl | hs2
                · exact hgk
                · exact hqgood s hs2
              rw [hshape] at hpatheq
              have hkk : k = k' := (List.cons.inj hpatheq).1
              rw [← hkk] at hcont
              rw [hcont] at hnc
              exact Bool.noConfusion hnc

theorem containsKey_single_ne (a key : String) (v : Value) (h : a ≠ key) :
    (EntryList.cons a v .nil).containsKey key = false := by
  simp [EntryList.containsKey, EntryList.lookupKey, h]

theorem containsKey_E_iff (l : List (String × Value)) (key : String) :
    (E l).containsKey key = true ↔ ∃ kv ∈ l, kv.1 = key := by
  induction l with
  | nil => simp [E, EntryList.containsKey, EntryList.lookupKey]
  | cons kv rest ih =>
      rw [E, containsKey_cons_iff]
      constructor
      · rintro (h | h)
        · exact ⟨kv, List.mem_cons_self _ _, h⟩
        · obtain ⟨kw, hkw, hkeq⟩ := ih.mp h
          exact ⟨kw, List.mem_cons_of_mem _ hkw, hkeq⟩
      · rintro ⟨kw, hkw, hkeq⟩
        rcases List.mem_cons.mp hkw with rfl | hkw2
        · exact Or.inl hkeq
        · exact Or.inr (ih.mpr ⟨kw, hkw2, hkeq⟩)

theorem render_head_ne (pre k : String) (rest : EntryList) (pv : List String × Value)
    (hgk : goodKey k = true) (hnc : rest.containsKey k = false)
    (hfr : flatSafeE rest = true) (hpv : pv ∈ leavesE rest) :
    renderKey pre [k] ≠ renderKey pre pv.1 := by
  obtain ⟨k', p', hshape, hcont⟩ := leaves_shape rest pv hpv
  obtain ⟨hpne, hpgood⟩ := leaves_good (sizeE rest) rest (le_refl _) hfr pv hpv
  intro heq
  have hinj := renderKey_inj pre [k] pv.1 (by simp) hpne
    (by
      intro s hs
      rcases List.mem_singleton.mp hs with rfl
      exact hgk) hpgood heq
  rw [hshape] at hinj
  have hkk : k = k' := (List.cons.inj hinj).1
  rw [hkk] at hnc
  rw [hcont] at hnc
  exact Bool.noConfusion hnc

theorem render_obj_head_ne (pre k : String) (msub rest : EntryList)
    (pv : List String × Value) (qv : List String × Value)
    (hgk : goodKey k = true) (hnc : rest.containsKey k = false)
    (hfsub : flatSafeE msub = true) (hfr : flatSafeE rest = true)
    (hqv : qv ∈ leavesE msub) (hpv : pv ∈ leavesE rest) :
    renderKey pre (k :: qv.1) ≠ renderKey pre pv.1 := by
  obtain ⟨k', p', hshape, hcont⟩ := leaves_shape rest pv hpv
  obtain ⟨hpne, hpgood⟩ := leaves_good (sizeE rest) rest (le_refl _) hfr pv hpv
  obtain ⟨hqne, hqgood⟩ := leaves_good (sizeE msub) msub (le_refl _) hfsub qv hqv
  intro heq
  have hinj := renderKey_inj pre (k :: qv.1) pv.1 (by simp) hpne
    (by
      intro s hs
      rcases List.mem_cons.mp hs with rfl | hs2
      · exact hgk
      · exact hqgood s hs2) hpgood heq
  rw [hshape] at hinj
  have hkk : k = k' := (List.cons.inj hinj).1
  rw [hkk] at hnc
  rw [hcont] at hnc
  exact Bool.noConfusion hnc

theorem flatten_leaf_case (f : Nat)
    (ihE : ∀ (m : EntryList) (pre : String) (res : EntryList) (depth : Int),
        flatSafeE m = true → sizeE m ≤ f →
        (∀ pv ∈ leavesE m, res.containsKey (renderKey pre pv.1) = false) →
        flattenEntriesGo f m pre res DefaultFlattenOptions depth =
          res.append (E (renderLeaves pre (leavesE m))))
    (k : String) (v : Value) (rest : EntryList) (pre : String) (res : EntryList)
    (depth : Int) (hno : notNeObj v = true)
    (hfs : flatSafeE (.cons k v rest) = true)
    (hsz : sizeE (.cons k v rest) ≤ f + 1)
    (hfresh : ∀ pv ∈ leavesE (.cons k v rest),
        res.containsKey (renderKey pre pv.1) = false) :
    flattenEntriesGo f rest pre
        (EntryList.setKey res (renderKey pre [k]) v) DefaultFlattenOptions depth =
      res.append (E (renderLeaves pre (leavesE (.cons k v rest)))) := by
  obtain ⟨hgk, hnc, hfv, hfr⟩ := flatSafeE_cons_parts k v rest hfs
  have hheadmem : ([k], v) ∈ leavesE (.cons k v rest) := by
    rw [leavesE_cons_leaf _ _ _ hno]
    exact List.mem_cons_self _ _
  have hfkfresh : res.containsKey (renderKey pre [k]) = false := hfresh _ hheadmem
  rw [setKey_fresh res _ v hfkfresh]
  rw [ihE rest pre _ depth hfr
    (by
      rw [sizeE] at hsz
      have := sizeV_pos v
      omega)
    (by
      intro pv hpv
      rw [containsKey_append]
      rw [hfresh pv (leaves_mem_rest _ _ _ _ hpv)]
      rw [containsKey_single_ne _ _ _ (render_head_ne pre k rest pv hgk hnc hfr hpv)]
      rfl)]
  rw [append_assoc_entries, leavesE_cons_leaf _ _ _ hno]
  rfl

theorem flatten_renders :
    ∀ fuel : Nat,
      (∀ (m : EntryList) (pre : String) (res : EntryList) (depth : Int),
        flatSafeE m = true → sizeE m ≤ fuel →
        (∀ pv ∈ leavesE m, res.containsKey (renderKey pre pv.1) = false) →
        flattenEntriesGo fuel m pre res DefaultFlattenOptions depth =
          res.append (E (renderLeaves pre (leavesE m)))) ∧
      (∀ (m : EntryList) (pre : String) (res : EntryList) (depth : Int),
        flatSafeE m = true → sizeE m < fuel →
        (∀ pv ∈ leavesE m, res.containsKey (renderKey pre pv.1) = false) →
        flattenGo fuel m pre res DefaultFlattenOptions depth =
          res.append (E (renderLeaves pre (leavesE m)))) := by
  intro fuel
  induction fuel with
  | zero =>
      constructor
      · intro m _ _ _ _ hsz
        have := sizeE_pos m
        omega
      · intro m _ _ _ _ hsz
        omega
  | succ f ih =>
      obtain ⟨ihE, ihGo⟩ := ih
      constructor
      · intro m pre res depth hfs hsz hfresh
        cases m with
        | nil =>
            simp only [flattenEntriesGo, leavesE, renderLeaves, List.map_nil, E,
              append_nil_right]
        | cons k v rest =>
            obtain ⟨hgk, hnc, hfv, hfr⟩ := flatSafeE_cons_parts k v rest hfs
            have hfk : (if pre = "" then k
                else pre ++ DefaultFlattenOptions.Separator ++ k) = renderKey pre [k] :=
              (renderKey_single pre k).symm
            cases v with
            | vnull =>
                simp only [flattenEntriesGo]
                rw [hfk]
                exact flatten_leaf_case f ihE k _ rest pre res depth rfl hfs hsz hfresh
            | vbool b =>
                simp only [flattenEntriesGo]
                rw [hfk]
                exact flatten_leaf_case f ihE k _ rest pre res depth rfl hfs hsz hfresh
            | vnum n =>
                simp only [flattenEntriesGo]
                rw [hfk]
                exact flatten_leaf_case f ihE k _ rest pre res depth rfl hfs hsz hfresh
            | vstr s =>
                simp only [flattenEntriesGo]
                rw [hfk]
                exact flatten_leaf_case f ihE k _ rest pre res depth rfl hfs hsz hfresh
            | vobj msub =>
                cases msub with
                | nil =>
                    have he : EntryList.isEmpty .nil = true := rfl
                    simp only [flattenEntriesGo, he, if_true]
                    rw [hfk]
                    exact flatten_leaf_case f ihE k _ rest pre res depth rfl hfs hsz hfresh
                | cons k2 v2 mrest =>
                    have he : EntryList.isEmpty (.cons k2 v2 mrest) = false := rfl
                    simp only [flattenEntriesGo, he, Bool.false_eq_true, if_false]
                    rw [hfk]
                    have hfsub : flatSafeE (EntryList.cons k2 v2 mrest) = true := hfv
                    have hsz' : sizeE (EntryList.cons k2 v2 mrest) < f := by
                      rw [sizeE, sizeV] at hsz
                      have := sizeE_pos rest
                      omega
                    have hszrest : sizeE rest ≤ f := by
                      rw [sizeE, sizeV] at hsz
                      have := sizeE_pos (EntryList.cons k2 v2 mrest)
                      omega
                    have hsubfresh : ∀ qv ∈ leavesE (EntryList.cons k2 v2 mrest),
                        res.containsKey (renderKey (renderKey pre [k]) qv.1) = false := by
                      intro qv hqv
                      obtain ⟨hqne, _⟩ := leaves_good (sizeE (EntryList.cons k2 v2 mrest))
                        _ (le_refl _) hfsub qv hqv
                      rw [← renderKey_cons pre k qv.1 hgk hqne]
                      apply hfresh (k :: qv.1, qv.2)
                      rw [leavesE_cons_obj]
                      exact List.mem_append_left _ (List.mem_map_of_mem _ hqv)
                    rw [ihGo (EntryList.cons k2 v2 mrest) (renderKey pre [k]) res
                      (depth + 1) hfsub hsz' hsubfresh]
                    rw [ihE rest pre _ depth hfr hszrest
                      (by
                        intro pv hpv
                        rw [containsKey_append]
                        rw [hfresh pv (leaves_mem_rest _ _ _ _ hpv)]
                        have h2 : (E (renderLeaves (renderKey pre [k])
                            (leavesE (EntryList.cons k2 v2 mrest)))).containsKey
                              (renderKey pre pv.1) = false := by
                          cases hc : (E (renderLeaves (renderKey pre [k])
                              (leavesE (EntryList.cons k2 v2 mrest)))).containsKey
                                (renderKey pre pv.1) with
                          | false => rfl
                          | true =>
                              exfalso
                              obtain ⟨kv, hkvmem, hkveq⟩ := (containsKey_E_iff _ _).mp hc
                              obtain ⟨qv, hqv, hqveq⟩ := List.mem_map.mp hkvmem
                              obtain ⟨hqne, _⟩ := leaves_good
                                (sizeE (EntryList.cons k2 v2 mrest)) _ (le_refl _)
                                hfsub qv hqv
                              have heq : renderKey (renderKey pre [k]) qv.1 =
                                  renderKey pre pv.1 := by
                                rw [← hkveq, ← hqveq]
                              rw [← renderKey_cons pre k qv.1 hgk hqne] at heq
                              exact render_obj_head_ne pre k (EntryList.cons k2 v2 mrest)
                                rest pv qv hgk hnc hfsub hfr hqv hpv heq
                        rw [h2]
                        rfl)]
                    have heqmap : renderLeaves pre
                        ((leavesE (EntryList.cons k2 v2 mrest)).map
                          (fun pv => (k :: pv.1, pv.2))) =
                        renderLeaves (renderKey pre [k])
                          (leavesE (EntryList.cons k2 v2 mrest)) := by
                      rw [renderLeaves, renderLeaves, List.map_map]
                      apply List.map_congr_left
                      intro qv hqv
                      obtain ⟨hqne, _⟩ := leaves_good (sizeE (EntryList.cons k2 v2 mrest))
                        _ (le_refl _) hfsub qv hqv
                      simp only [Function.comp]
                      rw [renderKey_cons pre k qv.1 hgk hqne]
                    rw [leavesE_cons_obj, renderLeaves_append, heqmap, E_append,
                      ← append_assoc_entries]
            | varr items =>
                have hinil : items = .nil := vl_isEmpty_nil items hfv
                subst hinil
                have he : ValueList.isEmpty .nil = true := rfl
                simp only [flattenEntriesGo, he, if_true]
                rw [hfk]
                exact flatten_leaf_case f ihE k _ rest pre res depth rfl hfs hsz hfresh
      · intro m pre res depth hfs hsz hfresh
        have hcond : ¬ (0 ≤ DefaultFlattenOptions.MaxDepth ∧
            DefaultFlattenOptions.MaxDepth < depth) := by
          rintro ⟨h1, _⟩
          rw [show DefaultFlattenOptions.MaxDepth = -1 from rfl] at h1
          omega
        simp only [flattenGo, if_neg hcond]
        exact ihE m pre res depth hfs (by omega) hfresh

theorem FlattenMap_renders (obj : EntryList) (pre : String) (hfs : flatSafeE obj = true) :
    FlattenMap obj pre = E (renderLeaves pre (leavesE obj)) := by
  rw [FlattenMap, FlattenMapWithOptions]
  rw [(flatten_renders (sizeE obj + 1)).2 obj pre .nil 0 hfs (by omega)
    (fun pv _ => rfl)]
  rfl

theorem convItemsGo_nil (fuel : Nat) : convItemsGo fuel .nil = some .nil := by
  cases fuel with
  | zero => rfl
  | succ f => rfl

theorem convPromote_flatSafe (m : EntryList) (h : flatSafeE m = true) :
    convPromote m = false := by
  cases m with
  | nil => rfl
  | cons k v rest =>
      obtain ⟨hgk, _, _, _⟩ := flatSafeE_cons_parts k v rest h
      have hatoi : atoi k = none := (goodKey_parts k hgk).2.2.2
      simp [convPromote, EntryList.allP, hatoi]

theorem convGo_id : ∀ (fuel : Nat) (m : EntryList), flatSafeE m = true →
    convGo fuel m = some m := by
  intro fuel
  induction fuel with
  | zero => intro m _; rfl
  | succ f ih =>
      intro m hfs
      cases m with
      | nil => rfl
      | cons k v rest =>
          obtain ⟨hgk, hnc, hfv, hfr⟩ := flatSafeE_cons_parts k v rest hfs
          have hrest := ih rest hfr
          cases v with
          | vnull => simp [convGo, hrest]
          | vbool b => simp [convGo, hrest]
          | vnum n => simp [convGo, hrest]
          | vstr s => simp [convGo, hrest]
          | vobj msub =>
              have hsub := ih msub hfv
              have hcp := convPromote_flatSafe msub hfv
              simp [convGo, hsub, hcp, hrest]
          | varr items =>
              have hinil : items = .nil := vl_isEmpty_nil items hfv
              subst hinil
              simp [convGo, convItemsGo_nil, hrest]

theorem preprocess_id :
    ∀ (l : List (String × Value)) (acc : EntryList),
      (∀ kv ∈ l, convertBracketToDot kv.1 "." = kv.1) →
      (∀ kv ∈ l, acc.containsKey kv.1 = false) →
      (l.map Prod.fst).Nodup →
      preprocessGo DefaultUnflattenOptions (E l) acc = acc.append (E l) := by
  intro l
  induction l with
  | nil =>
      intro acc _ _ _
      rw [show E [] = EntryList.nil from rfl, append_nil_right]
      rfl
  | cons kv rest ih =>
      intro acc hconv hfresh hnodup
      obtain ⟨k, v⟩ := kv
      rw [List.map_cons] at hnodup
      obtain ⟨hknotin, hrestnodup⟩ := List.nodup_cons.mp hnodup
      have hk2 : (if DefaultUnflattenOptions.SupportBracketNotation = true
          then convertBracketToDot k DefaultUnflattenOptions.Separator else k) = k := by
        rw [if_pos (show DefaultUnflattenOptions.SupportBracketNotation = true from rfl)]
        exact hconv (k, v) (List.mem_cons_self _ _)
      show preprocessGo DefaultUnflattenOptions (.cons k v (E rest)) acc = _
      simp only [preprocessGo, hk2]
      rw [setKey_fresh acc k v (hfresh (k, v) (List.mem_cons_self _ _))]
      rw [ih (acc.append (.cons k v .nil))
        (fun kw hkw => hconv kw (List.mem_cons_of_mem _ hkw))
        (by
          intro kw hkw
          rw [containsKey_append, hfresh kw (List.mem_cons_of_mem _ hkw)]
          have hne : k ≠ kw.1 := by
            intro heq
            have hmem : kw.1 ∈ List.map Prod.fst rest := List.mem_map_of_mem Prod.fst hkw
            rw [← heq] at hmem
            exact hknotin hmem
          rw [containsKey_single_ne _ _ _ hne]
          rfl)
        hrestnodup]
      rw [append_assoc_entries]
      rfl

theorem assign_insert (value : Value) :
    ∀ (parts : List String), (∀ s ∈ parts, atoi s = none) →
      ∀ obj : EntryList,
        assignToNested obj parts value DefaultUnflattenOptions =
          some (insertPath obj parts value) := by
  intro parts
  induction parts with
  | nil => intro _ obj; rfl
  | cons p rest ih =>
      intro hnum obj
      cases rest with
      | nil => rfl
      | cons next rest2 =>
          have hnext : atoi next =
              none := hnum next (List.mem_cons_of_mem _ (List.mem_cons_self _ _))
          have hidx : (if DefaultUnflattenOptions.DetectArrays = true
              then atoi next else none) = none := by
            rw [if_pos (show DefaultUnflattenOptions.DetectArrays = true from rfl), hnext]
          simp only [assignToNested, hidx]
          rw [ih (fun s hs => hnum s (List.mem_cons_of_mem _ hs)) _]
          rfl

theorem assignLoop_insertAll :
    ∀ (ls : List (List String × Value)) (res : EntryList),
      (∀ pv ∈ ls, pv.1 ≠ [] ∧ ∀ s ∈ pv.1, goodKey s = true) →
      assignLoop DefaultUnflattenOptions (E (renderLeaves "" ls)) res =
        some (insertAll res ls) := by
  intro ls
  induction ls with
  | nil => intro res _; rfl
  | cons pv rest ih =>
      intro res hgood
      obtain ⟨p, v⟩ := pv
      obtain ⟨hpne, hpgood⟩ := hgood (p, v) (List.mem_cons_self _ _)
      show assignLoop DefaultUnflattenOptions
        (.cons (renderKey "" p) v (E (renderLeaves "" rest))) res = _
      simp only [assignLoop]
      have hsplit : splitGo (renderKey "" p) DefaultUnflattenOptions.Separator = p := by
        rw [show renderKey "" p = renderPath p from by rw [renderKey, if_pos rfl]]
        exact splitGo_renderPath p hpne hpgood
      rw [hsplit]
      have hnum : ∀ s ∈ p, atoi s = none :=
        fun s hs => (goodKey_parts s (hpgood s hs)).2.2.2
      rw [assign_insert v p hnum res]
      exact ih (insertPath res p v) (fun qv hqv => hgood qv (List.mem_cons_of_mem _ hqv))

theorem insertAll_append (a b : List (List String × Value)) :
    ∀ sub, insertAll sub (a ++ b) = insertAll (insertAll sub a) b := by
  induction a with
  | nil => intro sub; rfl
  | cons pv rest ih =>
      intro sub
      obtain ⟨p, v⟩ := pv
      simp only [List.cons_append, insertAll]
      exact ih _

theorem insertAll_under_key (k : String) :
    ∀ (pl : List (List String × Value)) (sub : EntryList), pl ≠ [] →
      (∀ pv ∈ pl, pv.1 ≠ []) →
      insertAll sub (pl.map (fun pv => (k :: pv.1, pv.2))) =
        sub.setKey k (Value.vobj (insertAll (asMap (sub.lookupKey k)) pl)) := by
  intro pl
  induction pl with
  | nil => intro sub h _; exact absurd rfl h
  | cons pv rest ih =>
      intro sub _ hne
      obtain ⟨p, v⟩ := pv
      have hpne : p ≠ [] := hne (p, v) (List.mem_cons_self _ _)
      simp only [List.map_cons, insertAll]
      have hstep : insertPath sub (k :: p) v =
          sub.setKey k (Value.vobj (insertPath (asMap (sub.lookupKey k)) p v)) := by
        match p, hpne with
        | q :: qrest, _ => rfl
      rw [hstep]
      cases rest with
      | nil => simp [insertAll]
      | cons qv rest2 =>
          rw [ih (sub.setKey k (Value.vobj (insertPath (asMap (sub.lookupKey k)) p v)))
            (by simp) (fun w hw => hne w (List.mem_cons_of_mem _ hw))]
          rw [lookup_setKey_self, setKey_setKey]
          rfl

theorem insertAll_leaves :
    ∀ (n : Nat) (m : EntryList) (sub : EntryList), sizeE m ≤ n → flatSafeE m = true →
      (∀ k', m.containsKey k' = true → sub.containsKey k' = false) →
      insertAll sub (leavesE m) = sub.append m := by
  intro n
  induction n with
  | zero =>
      intro m sub hsz
      have := sizeE_pos m
      omega
  | succ n ih =>
      intro m sub hsz hfs hfresh
      cases m with
      | nil =>
          rw [append_nil_right]
          rfl
      | cons k v rest =>
          obtain ⟨hgk, hnc, hfv, hfr⟩ := flatSafeE_cons_parts k v rest hfs
          have hkfresh : sub.containsKey k = false :=
            hfresh k (containsKey_cons_iff k v rest k |>.mpr (Or.inl rfl))
          have hszrest : sizeE rest ≤ n := by
            rw [sizeE] at hsz
            have := sizeV_pos v
            omega
          have hrestfresh : ∀ k', rest.containsKey k' = true →
              (sub.append (.cons k v .nil)).containsKey k' = false := by
            intro k' hk'
            rw [containsKey_append]
            rw [hfresh k' (containsKey_cons_iff k v rest k' |>.mpr (Or.inr hk'))]
            have hne : k ≠ k' := by
              intro heq
              rw [heq] at hnc
              rw [hk'] at hnc
              exact Bool.noConfusion hnc
            rw [containsKey_single_ne _ _ _ hne]
            rfl
          by_cases hno : notNeObj v = true
          · rw [leavesE_cons_leaf _ _ _ hno]
            show insertAll (insertPath sub [k] v) (leavesE rest) = _
            have hsetk : insertPath sub [k] v = sub.append (.cons k v .nil) := by
              show sub.setKey k v = _
              exact setKey_fresh sub k v hkfresh
            rw [hsetk, ih rest _ hszrest hfr hrestfresh, append_assoc_entries]
            rfl
          · have hfalse : notNeObj v = false := by
              cases hcase : notNeObj v with
              | false => rfl
              | true => exact absurd hcase hno
            obtain ⟨k2, v2, m2, rfl⟩ := notNeObj_false_shape v hfalse
            rw [leavesE_cons_obj, insertAll_append]
            have hsubne : EntryList.cons k2 v2 m2 ≠ .nil := by
              intro hh
              exact EntryList.noConfusion hh
            have hlne : leavesE (EntryList.cons k2 v2 m2) ≠ [] :=
              leaves_nonempty (sizeE (EntryList.cons k2 v2 m2)) _ (le_refl _) hsubne
            have hlsz : sizeE (EntryList.cons k2 v2 m2) ≤ n := by
              rw [sizeE, sizeV] at hsz
              have := sizeE_pos rest
              omega
            have hpne : ∀ pv ∈ leavesE (EntryList.cons k2 v2 m2), pv.1 ≠ [] :=
              fun pv hpv =>
                (leaves_good (sizeE (EntryList.cons k2 v2 m2)) _ (le_refl _) hfv pv hpv).1
            rw [insertAll_under_key k (leavesE (EntryList.cons k2 v2 m2)) sub hlne hpne]
            have hlk : sub.lookupKey k = none := by
              rw [EntryList.containsKey] at hkfresh
              cases hlook : sub.lookupKey k with
              | none => rfl
              | some w =>
                  rw [hlook] at hkfresh
                  simp at hkfresh
            rw [hlk]
            rw [show asMap (none : Option Value) = .nil from rfl]
            rw [ih (EntryList.cons k2 v2 m2) .nil hlsz hfv (fun k' _ => rfl)]
            rw [show EntryList.append .nil (EntryList.cons k2 v2 m2) =
              EntryList.cons k2 v2 m2 from rfl]
            rw [setKey_fresh sub k _ hkfresh]
            rw [ih rest _ hszrest hfr hrestfresh, append_assoc_entries]
            rfl

theorem unflatten_flatten_id (doc : EntryList) (hfs : flatSafeE doc = true) :
    UnflattenMapWithOptions (FlattenMap doc "") DefaultUnflattenOptions = some doc := by
  rw [FlattenMap_renders doc "" hfs]
  have hgood : ∀ pv ∈ leavesE doc, pv.1 ≠ [] ∧ ∀ s ∈ pv.1, goodKey s = true :=
    leaves_good (sizeE doc) doc (le_refl _) hfs
  have hconv : ∀ kv ∈ renderLeaves "" (leavesE doc),
      convertBracketToDot kv.1 "." = kv.1 := by
    intro kv hkv
    obtain ⟨pv, hpv, rfl⟩ := List.mem_map.mp hkv
    obtain ⟨hpne, hpgood⟩ := hgood pv hpv
    apply convertBracketToDot_id
    show '[' ∉ (renderKey "" pv.1).toList
    rw [renderKey, if_pos rfl]
    exact renderPath_no_bracket pv.1 hpne hpgood
  have hnodup := leaves_keys_nodup (sizeE doc) doc "" (le_refl _) hfs
  have hins : insertAll .nil (leavesE doc) = doc := by
    rw [insertAll_leaves (sizeE doc) doc .nil (le_refl _) hfs (fun k' _ => rfl)]
    rfl
  simp only [UnflattenMapWithOptions]
  rw [preprocess_id (renderLeaves "" (leavesE doc)) .nil hconv (fun kv _ => rfl) hnodup]
  rw [show EntryList.append .nil (E (renderLeaves "" (leavesE doc))) =
    E (renderLeaves "" (leavesE doc)) from rfl]
  rw [assignLoop_insertAll (leavesE doc) .nil hgood]
  rw [hins]
  exact convGo_id (sizeE doc) doc hfs

theorem isLeaf_notNeObj (c : Value) (h : isLeafV c = true) : notNeObj c = true := by
  cases c with
  | vobj m =>
      cases m with
      | nil => rfl
      | cons a b r => simp [isLeafV, EntryList.isEmpty] at h
  | vnull => rfl
  | vbool b => rfl
  | vnum n => rfl
  | vstr s => rfl
  | varr l => rfl

theorem lookup_E_of_mem (key : String) (c : Value) :
    ∀ (l : List (String × Value)), (l.map Prod.fst).Nodup → (key, c) ∈ l →
      (E l).lookupKey key = some c := by
  intro l
  induction l with
  | nil =>
      intro _ hmem
      simp at hmem
  | cons kv rest ih =>
      intro hnd hmem
      obtain ⟨k0, v0⟩ := kv
      rw [List.map_cons] at hnd
      obtain ⟨hnotin, hnd2⟩ := List.nodup_cons.mp hnd
      rcases List.mem_cons.mp hmem with heq | hmem2
      · rw [Prod.mk.injEq] at heq
        obtain ⟨h1, h2⟩ := heq
        show EntryList.lookupKey (.cons k0 v0 (E rest)) key = some c
        rw [EntryList.lookupKey, if_pos h1.symm, h2]
      · have hkeymem : key ∈ List.map Prod.fst rest := List.mem_map_of_mem Prod.fst hmem2
        have hne : ¬ (k0 = key) := by
          intro heq
          rw [heq] at hnotin
          exact hnotin hkeymem
        show EntryList.lookupKey (.cons k0 v0 (E rest)) key = some c
        rw [EntryList.lookupKey, if_neg hne]
        exact ih hnd2 hmem2

theorem lookupPath_leaves :
    ∀ (n : Nat) (m : EntryList) (p : List String) (c : Value), sizeE m ≤ n →
      flatSafeE m = true → lookupPath m p = some c → isLeafV c = true →
      (p, c) ∈ leavesE m := by
  intro n
  induction n with
  | zero =>
      intro m p c hsz
      have := sizeE_pos m
      omega
  | succ n ih =>
      intro m p c hsz hfs hlook hleaf
      cases m with
      | nil =>
          exfalso
          cases p with
          | nil => exact Option.noConfusion hlook
          | cons q l =>
              rw [lookupPath_nil_entries (q :: l) (by simp)] at hlook
              exact Option.noConfusion hlook
      | cons k v rest =>
          obtain ⟨hgk, hnc, hfv, hfr⟩ := flatSafeE_cons_parts k v rest hfs
          have hszrest : sizeE rest ≤ n := by
            rw [sizeE] at hsz
            have := sizeV_pos v
            omega
          cases p with
          | nil => exact Option.noConfusion hlook
          | cons q l =>
              cases l with
              | nil =>
                  -- single segment: plain map lookup
                  rw [show lookupPath (EntryList.cons k v rest) [q] =
                    (EntryList.cons k v rest).lookupKey q from rfl] at hlook
                  rw [EntryList.lookupKey] at hlook
                  by_cases hkq : k = q
                  · rw [if_pos hkq] at hlook
                    have hcv : v = c := Option.some.inj hlook
                    subst hcv
                    rw [leavesE_cons_leaf _ _ _ (isLeaf_notNeObj v hleaf), hkq]
                    exact List.mem_cons_self _ _
                  · rw [if_neg hkq] at hlook
                    exact leaves_mem_rest k v rest _
                      (ih rest [q] c hszrest hfr hlook hleaf)
              | cons q2 l2 =>
                  rw [lookupPath_cons _ q (q2 :: l2) (by simp)] at hlook
                  rw [EntryList.lookupKey] at hlook
                  by_cases hkq : k = q
                  · rw [if_pos hkq] at hlook
                    cases v with
                    | vobj sub =>
                        have hlook2 : lookupPath sub (q2 :: l2) = some c := hlook
                        cases sub with
                        | nil =>
                            exfalso
                            rw [lookupPath_nil_entries (q2 :: l2) (by simp)] at hlook2
                            exact Option.noConfusion hlook2
                        | cons k2 v2 m2 =>
                            have hsubsz : sizeE (EntryList.cons k2 v2 m2) ≤ n := by
                              rw [sizeE, sizeV] at hsz
                              have := sizeE_pos rest
                              omega
                            have hsubmem := ih (EntryList.cons k2 v2 m2) (q2 :: l2) c
                              hsubsz hfv hlook2 hleaf
                            rw [leavesE_cons_obj]
                            apply List.mem_append_left
                            rw [hkq]
                            exact List.mem_map_of_mem (fun pv => (q :: pv.1, pv.2)) hsubmem
                    | vnull => exact Option.noConfusion hlook
                    | vbool b => exact Option.noConfusion hlook
                    | vnum nn => exact Option.noConfusion hlook
                    | vstr s => exact Option.noConfusion hlook
                    | varr items => exact Option.noConfusion hlook
                  · rw [if_neg hkq] at hlook
                    have hrestlook : lookupPath rest (q :: q2 :: l2) = some c := by
                      rw [lookupPath_cons rest q (q2 :: l2) (by simp)]
                      exact hlook
                    exact leaves_mem_rest k v rest _
                      (ih rest (q :: q2 :: l2) c hszrest hfr hrestlook hleaf)

/-! ## Claim theorems -/

/-- C1 counterexample: unflattening `{"a.0": "x", "a.2": "y"}` under default
config does not yield a map-valued `a` with keys "0" and "2" — it yields the
sequence `[{}, null, {}]` (the values are dropped because the final numeric
segment is consumed without assignment), so `a` is not map-valued at all;
moreover the cited json.go promotion pass has no gap check: it turns the map
`{"0": "x", "2": "y"}` itself into the sequence `["x", null, "y"]`. -/
theorem C1_counterexample :
    UnflattenMapWithOptions (E [("a.0", Value.vstr "x"), ("a.2", Value.vstr "y")])
        DefaultUnflattenOptions =
      some (E [("a", Value.varr (A [Value.vobj .nil, Value.vnull, Value.vobj .nil]))]) ∧
    objValued (EntryList.lookupKey
      (E [("a", Value.varr (A [Value.vobj .nil, Value.vnull, Value.vobj .nil]))]) "a") =
      false ∧
    convGo 9 (E [("a", Value.vobj (E [("0", Value.vstr "x"), ("2", Value.vstr "y")]))]) =
      some (E [("a", Value.varr (A [Value.vstr "x", Value.vnull, Value.vstr "y"]))]) :=
  ⟨rfl, rfl, rfl⟩

/-- C1 (amended): the json.go array-promotion post-pass replaces a processed
map by a sequence exactly when it is non-empty and every key parses with
strconv.Atoi — gaps are filled with nulls, with no consecutiveness check
(only the part_000 revision's shouldConvertToArray demands every index
0..maxIndex present, characterized in the third conjunct).  Unflattening
`{"a.0": "x", "a.2": "y"}` under default config therefore yields at `a` the
sequence `[{}, null, {}]` (the string values are dropped by assignToNested
on a final numeric segment), not a map with keys "0" and "2". -/
theorem C1_amended :
    (UnflattenMapWithOptions (E [("a.0", Value.vstr "x"), ("a.2", Value.vstr "y")])
        DefaultUnflattenOptions =
      some (E [("a", Value.varr (A [Value.vobj .nil, Value.vnull, Value.vobj .nil]))])) ∧
    (∀ (fuel : Nat) (k : String) (m : EntryList),
      scalarsE m = true → m.length + 2 ≤ fuel →
      convGo fuel (.cons k (Value.vobj m) .nil) =
        if convPromote m then
          (convFill m).map (fun arr => EntryList.cons k (Value.varr arr) .nil)
        else some (EntryList.cons k (Value.vobj m) .nil)) ∧
    (∀ m : EntryList, shouldConvertToArray m = true ↔
      (m ≠ .nil ∧ (∀ k ∈ m.keysOf, (atoi k).isSome = true) ∧
        ∀ i : Nat, (i : Int) ≤ convMaxIdx m → m.containsKey (toString i) = true)) := by
  refine ⟨rfl, ?_, ?_⟩
  · intro fuel k m hs hlen
    obtain ⟨f, rfl⟩ : ∃ f, fuel = f + 1 := ⟨fuel - 1, by omega⟩
    have hm : convGo f m = some m := convGo_scalars m f hs (by omega)
    simp only [convGo, hm, convGo_nil]
    by_cases hp : convPromote m = true
    · simp only [hp, if_true]
      cases hcf : convFill m <;> simp [hcf, hp]
    · simp at hp
      simp [hp]
  · intro m
    match m with
    | .nil => simp [shouldConvertToArray, EntryList.isEmpty]
    | .cons k0 v0 rest0 =>
      have hne : EntryList.cons k0 v0 rest0 ≠ .nil := fun h => EntryList.noConfusion h
      simp only [shouldConvertToArray, EntryList.isEmpty, Bool.false_eq_true, if_false]
      by_cases hall :
          EntryList.allP (fun k _ => (atoi k).isSome) (EntryList.cons k0 v0 rest0) = true
      · rw [if_pos hall]
        have hkeys := (allP_keys (fun k => (atoi k).isSome) (EntryList.cons k0 v0 rest0)).mp hall
        constructor
        · intro hrange
          refine ⟨hne, hkeys, ?_⟩
          intro i hi
          have hmem : i ∈ List.range (convMaxIdx (EntryList.cons k0 v0 rest0) + 1).toNat := by
            refine List.mem_range.mpr ?_
            have h1 := convMaxIdx_ge (EntryList.cons k0 v0 rest0)
            omega
          exact List.all_eq_true.mp hrange i hmem
        · rintro ⟨_, _, h3⟩
          refine List.all_eq_true.mpr ?_
          intro i hi
          have hi2 := List.mem_range.mp hi
          refine h3 i ?_
          omega
      · rw [if_neg hall]
        simp only [Bool.false_eq_true, false_iff]
        rintro ⟨_, h2, _⟩
        exact hall ((allP_keys (fun k => (atoi k).isSome) (EntryList.cons k0 v0 rest0)).mpr h2)

/-- C1 witness: the amended promotion characterizations applied at concrete
maps, with all hypotheses discharged. -/
theorem C1_amended_witness :
    (convGo 4 (.cons "a" (Value.vobj (E [("0", Value.vstr "x"), ("2", Value.vstr "y")])) .nil) =
      if convPromote (E [("0", Value.vstr "x"), ("2", Value.vstr "y")]) then
        (convFill (E [("0", Value.vstr "x"), ("2", Value.vstr "y")])).map
          (fun arr => EntryList.cons "a" (Value.varr arr) .nil)
      else some (EntryList.cons "a"
        (Value.vobj (E [("0", Value.vstr "x"), ("2", Value.vstr "y")])) .nil)) ∧
    shouldConvertToArray (E [("0", Value.vstr "x"), ("1", Value.vstr "y")]) = true :=
  ⟨C1_amended.2.1 4 "a" (E [("0", Value.vstr "x"), ("2", Value.vstr "y")]) (by rfl) (by decide),
   (C1_amended.2.2 (E [("0", Value.vstr "x"), ("1", Value.vstr "y")])).mpr
     ⟨fun h => EntryList.noConfusion h,
      by
        intro k hk
        simp [E, EntryList.keysOf] at hk
        rcases hk with h | h <;> subst h <;> rfl,
      by
        intro i hi
        have hle : convMaxIdx (E [("0", Value.vstr "x"), ("1", Value.vstr "y")]) = 1 := rfl
        rw [hle] at hi
        have h2 : i ≤ 1 := by omega
        interval_cases i <;> rfl⟩⟩

/-- C10: for every well-formed nested document and key path (with a
non-empty separator; the Go loop diverges on an empty one), if
RemoveKeysFromPath returns false the document comes back completely
unchanged; if it returns true, the terminal path no longer resolves, every
path diverging from the removed one resolves exactly as before (so only the
terminal key and emptied ancestors are removed, never the root map itself),
and every surviving proper ancestor of the removed path is a non-empty map
(ancestors are removed exactly while they become empty). -/
theorem C10_remove_keys_path (value : EntryList) (keyPath sep : String)
    (hsep : sep ≠ "") (hwf : wfE value = true) :
    ((RemoveKeysFromPath value keyPath sep).1 = false →
      (RemoveKeysFromPath value keyPath sep).2 = value) ∧
    ((RemoveKeysFromPath value keyPath sep).1 = true →
      lookupPath (RemoveKeysFromPath value keyPath sep).2 (splitKeyPath keyPath sep) = none ∧
      (∀ q : List String, q ≠ [] → ¬ (q <+: splitKeyPath keyPath sep) →
        ¬ (splitKeyPath keyPath sep <+: q) →
        lookupPath (RemoveKeysFromPath value keyPath sep).2 q = lookupPath value q) ∧
      (∀ q : List String, q ≠ [] → q <+: splitKeyPath keyPath sep →
        q ≠ splitKeyPath keyPath sep →
        lookupPath (RemoveKeysFromPath value keyPath sep).2 q = none ∨
          ∃ sub : EntryList,
            lookupPath (RemoveKeysFromPath value keyPath sep).2 q = some (Value.vobj sub) ∧
            sub ≠ .nil)) := by
  rcases hp : splitKeyPath keyPath sep with _ | ⟨p1, ps⟩
  · have hr : RemoveKeysFromPath value keyPath sep = (false, value) := by
      simp only [RemoveKeysFromPath, hp]
    rw [hr]
    exact ⟨fun _ => rfl, fun h => absurd h (by simp)⟩
  · rcases ps with _ | ⟨p2, ps2⟩
    · by_cases hc : value.containsKey p1 = true
      · have hr : RemoveKeysFromPath value keyPath sep = (true, value.eraseKey p1) := by
          simp only [RemoveKeysFromPath, hp, hc, if_true]
        rw [hr]
        refine ⟨fun h => absurd h (by simp), fun _ => ?_⟩
        have hm := remove_master [] value [] value p1 hwf rfl hc (value.eraseKey p1)
          (by rw [rebuildChain])
        simpa using hm
      · have hcf : value.containsKey p1 = false := by simpa using hc
        have hr : RemoveKeysFromPath value keyPath sep = (false, value) := by
          simp [RemoveKeysFromPath, hp, hcf]
        rw [hr]
        exact ⟨fun _ => rfl, fun h => absurd h (by simp)⟩
    · rcases hnav : navigateParents value (splitLastAux p1 (p2 :: ps2)).1 with _ | cf
      · have hr : RemoveKeysFromPath value keyPath sep = (false, value) := by
          simp only [RemoveKeysFromPath, hp, hnav]
        rw [hr]
        exact ⟨fun _ => rfl, fun h => absurd h (by simp)⟩
      · by_cases hc : cf.2.containsKey (splitLastAux p1 (p2 :: ps2)).2 = true
        · have hr : RemoveKeysFromPath value keyPath sep =
              (true, rebuildChain cf.1
                (cf.2.eraseKey (splitLastAux p1 (p2 :: ps2)).2)) := by
            simp only [RemoveKeysFromPath, hp, hnav, hc, if_true]
          rw [hr]
          refine ⟨fun h => absurd h (by simp), fun _ => ?_⟩
          have hm := remove_master (splitLastAux p1 (p2 :: ps2)).1 value cf.1 cf.2
            (splitLastAux p1 (p2 :: ps2)).2 hwf hnav hc
            (rebuildChain cf.1 (cf.2.eraseKey (splitLastAux p1 (p2 :: ps2)).2)) rfl
          rw [← splitLastAux_spec (p2 :: ps2) p1] at hm
          exact hm
        · have hcf : cf.2.containsKey (splitLastAux p1 (p2 :: ps2)).2 = false := by
            simpa using hc
          have hr : RemoveKeysFromPath value keyPath sep = (false, value) := by
            simp [RemoveKeysFromPath, hp, hnav, hcf]
          rw [hr]
          exact ⟨fun _ => rfl, fun h => absurd h (by simp)⟩

/-- C10 witness: removal applied to a concrete nested document, with the
hypotheses discharged: removing `a.b` from `{a: {b: "x", c: "y"}}` succeeds
and the path `a.b` no longer resolves. -/
theorem C10_remove_keys_path_witness :
    lookupPath
      (RemoveKeysFromPath
        (E [("a", Value.vobj (E [("b", Value.vstr "x"), ("c", Value.vstr "y")]))])
        "a.b" ".").2
      (splitKeyPath "a.b" ".") = none :=
  ((C10_remove_keys_path
      (E [("a", Value.vobj (E [("b", Value.vstr "x"), ("c", Value.vstr "y")]))])
      "a.b" "." (by decide) (by rfl)).2 rfl).1

/-- C7 counterexample: under default options, flattening `{"a": [[[1]]]}`
stores the non-empty sequence `[1]` verbatim under the key `a.0.0` (the
nested-array loop inserts non-map elements as they are), so the flat map is
not free of non-empty sequence values. -/
theorem C7_counterexample :
    FlattenMapWithOptions
        (E [("a", Value.varr (A [Value.varr (A [Value.varr (A [Value.vnum 1])])]))]) ""
        DefaultFlattenOptions =
      E [("a.0.0", Value.varr (A [Value.vnum 1]))] ∧
    EntryList.lookupKey (E [("a.0.0", Value.varr (A [Value.vnum 1]))]) "a.0.0" =
      some (Value.varr (A [Value.vnum 1])) ∧
    isLeafV (Value.varr (A [Value.vnum 1])) = false :=
  ⟨rfl, rfl, rfl⟩

/-- C7 (amended): for every input document and key prefix, and any options
with unlimited depth (MaxDepth < 0, the default), the flat map returned by
the flattener contains no non-empty map value — empty maps and sequences
appear verbatim as leaves — but non-empty sequence values can appear: an
array nested directly inside an array has its non-map elements (including
further non-empty arrays) emitted verbatim, e.g. `{"a": [[[1]]]}` flattens
to `{"a.0.0": [1]}` under default options. -/
theorem C7_amended :
    (∀ (fuel : Nat) (obj : EntryList) (pre : String) (res : EntryList)
        (opts : FlattenOptions) (depth : Int),
      opts.MaxDepth < 0 → noNeObjValues res = true →
      noNeObjValues (flattenGo fuel obj pre res opts depth) = true) ∧
    FlattenMapWithOptions
        (E [("a", Value.varr (A [Value.varr (A [Value.varr (A [Value.vnum 1])])]))]) ""
        DefaultFlattenOptions =
      E [("a.0.0", Value.varr (A [Value.vnum 1]))] :=
  ⟨fun fuel => (flatten_noNeObj fuel).1, rfl⟩

/-- C7 witness: the no-non-empty-map invariant applied to a concrete
flattening with the hypotheses discharged. -/
theorem C7_amended_witness :
    noNeObjValues
      (flattenGo 9 (E [("a", Value.vobj (E [("b", Value.vstr "x")]))]) "" .nil
        DefaultFlattenOptions 0) = true :=
  C7_amended.1 9 (E [("a", Value.vobj (E [("b", Value.vstr "x")]))]) "" .nil
    DefaultFlattenOptions 0 (by decide) (by rfl)

/-- C3: the spec claims a malformed segment such as the negative index in the
key `a.-1.b` is treated as a literal string map key and never makes Unflatten
fail.  The code instead panics: `assignToNested` parses `-1` with
`strconv.Atoi`, builds `arr := make([]any, 0)` and evaluates `arr[-1]`, an
index-out-of-range runtime panic, modelled here by the `none` result.  The
spec states the evident intent; the missing negativity guard is a code bug. -/
theorem C3_negative_index_panics :
    UnflattenMapWithOptions (E [("a.-1.b", Value.vstr "x")]) DefaultUnflattenOptions = none := rfl

/-- C5: flattening the person document with empty key prefix and default
options yields exactly the three advertised flat entries, and unflattening
that flat map with default options returns exactly the original document. -/
theorem C5_end_to_end_roundtrip :
    FlattenMapWithOptions
        (E [("person", Value.vobj (E [("name", Value.vstr "John Doe"),
          ("addresses", Value.varr (A [Value.vobj (E [("type", Value.vstr "home"),
            ("street", Value.vstr "123 Main St")])]))]))]) "" DefaultFlattenOptions =
      E [("person.name", Value.vstr "John Doe"),
         ("person.addresses.0.type", Value.vstr "home"),
         ("person.addresses.0.street", Value.vstr "123 Main St")] ∧
    UnflattenMapWithOptions
        (E [("person.name", Value.vstr "John Doe"),
            ("person.addresses.0.type", Value.vstr "home"),
            ("person.addresses.0.street", Value.vstr "123 Main St")]) DefaultUnflattenOptions =
      some (E [("person", Value.vobj (E [("name", Value.vstr "John Doe"),
        ("addresses", Value.varr (A [Value.vobj (E [("type", Value.vstr "home"),
          ("street", Value.vstr "123 Main St")])]))]))]) :=
  ⟨rfl, rfl⟩

/-- C6: with bracket notation enabled (the default), `user[0].name` is
rewritten to `user.0.name` before splitting, so unflattening
`{"user[0].name": "A"}` equals unflattening `{"user.0.name": "A"}`, and both
produce `{user: [{name: "A"}]}`. -/
theorem C6_bracket_dot_equivalence :
    convertBracketToDot "user[0].name" "." = "user.0.name" ∧
    UnflattenMapWithOptions (E [("user[0].name", Value.vstr "A")]) DefaultUnflattenOptions =
      UnflattenMapWithOptions (E [("user.0.name", Value.vstr "A")]) DefaultUnflattenOptions ∧
    UnflattenMapWithOptions (E [("user[0].name", Value.vstr "A")]) DefaultUnflattenOptions =
      some (E [("user", Value.varr (A [Value.vobj (E [("name", Value.vstr "A")])]))]) :=
  ⟨rfl, rfl, rfl⟩

/-- C4 counterexample: flattening `{a: {b: {c: 1}}}` with MaxDepth 1 does not
produce the single entry `a ↦ {b: {c: 1}}` claimed by the spec — the depth
budget admits two map levels (the check is `depth > MaxDepth` on entry), so
the result's single entry is the key `a.b` holding `{c: 1}`, and no key `a`
exists at all. -/
theorem C4_counterexample :
    EntryList.containsKey
        (FlattenMapWithOptions
          (E [("a", Value.vobj (E [("b", Value.vobj (E [("c", Value.vnum 1)]))]))]) ""
          { DefaultFlattenOptions with MaxDepth := 1 }) "a" = false ∧
    FlattenMapWithOptions
        (E [("a", Value.vobj (E [("b", Value.vobj (E [("c", Value.vnum 1)]))]))]) ""
        { DefaultFlattenOptions with MaxDepth := 1 } =
      E [("a.b", Value.vobj (E [("c", Value.vnum 1)]))] :=
  ⟨rfl, rfl⟩

/-- C4 (amended): flattening `{a: {b: {c: 1}}}` with MaxDepth = 1 yields the
single entry `a.b ↦ {c: 1}` — maps are recursed into while the running depth
does not exceed MaxDepth, and once it does the whole remaining subtree is
stored, with no error, as one leaf value under its current joined key
(whenever that key prefix is non-empty). -/
theorem C4_amended :
    (FlattenMapWithOptions
        (E [("a", Value.vobj (E [("b", Value.vobj (E [("c", Value.vnum 1)]))]))]) ""
        { DefaultFlattenOptions with MaxDepth := 1 } =
      E [("a.b", Value.vobj (E [("c", Value.vnum 1)]))]) ∧
    (∀ (fuel : Nat) (obj : EntryList) (pre : String) (res : EntryList)
        (opts : FlattenOptions) (depth : Int),
      0 ≤ opts.MaxDepth → opts.MaxDepth < depth → pre ≠ "" → 0 < fuel →
      flattenGo fuel obj pre res opts depth = EntryList.setKey res pre (Value.vobj obj)) := by
  refine ⟨rfl, ?_⟩
  intro fuel obj pre res opts depth h1 h2 h3 h4
  match fuel with
  | 0 => omega
  | fuel + 1 => simp [flattenGo, h1, h2, h3]

/-- C4 witness: the general branch of `C4_amended` applied at a concrete
input with its hypotheses discharged. -/
theorem C4_amended_witness :
    flattenGo 1 (E [("x", Value.vnum 2)]) "p" .nil
        { DefaultFlattenOptions with MaxDepth := 0 } 1 =
      EntryList.setKey .nil "p" (Value.vobj (E [("x", Value.vnum 2)])) :=
  C4_amended.2 1 (E [("x", Value.vnum 2)]) "p" .nil
    { DefaultFlattenOptions with MaxDepth := 0 } 1 (by decide) (by decide)
    (by decide) (by decide)

/-- C9: the batch coordinator (worker pool sequentialized, per-file I/O
abstracted into the `ok` oracle) returns an error exactly when at least one
file fails; the error message is the exact failure count followed by
" files failed to process"; and the files written are exactly the successful
ones, independently of any failures (no rollback). -/
theorem C9_batch_aggregate (files : List String) (ok : String → Bool) :
    ((ProcessDirectoryGo files ok).1.isSome ↔ ∃ f ∈ files, ok f = false) ∧
    (∀ msg, (ProcessDirectoryGo files ok).1 = some msg →
      msg = toString (files.filter (fun f => !ok f)).length ++ " files failed to process") ∧
    (ProcessDirectoryGo files ok).2 = files.filter (fun f => ok f) := by
  match files with
  | [] =>
      refine ⟨by simp [ProcessDirectoryGo], ?_, by simp [ProcessDirectoryGo]⟩
      intro msg h
      simp [ProcessDirectoryGo] at h
  | f :: rest =>
      have hd := drainResults_spec ok (f :: rest) 0 0 []
      have hfst : (ProcessDirectoryGo (f :: rest) ok).1 =
          (if 0 < ((f :: rest).filter (fun x => !ok x)).length then
            some (toString ((f :: rest).filter (fun x => !ok x)).length ++
              " files failed to process")
          else none) := by
        simp [ProcessDirectoryGo, hd]
      have hsnd : (ProcessDirectoryGo (f :: rest) ok).2 =
          (f :: rest).filter (fun x => ok x) := by
        simp [ProcessDirectoryGo, hd]
      have hiff : 0 < ((f :: rest).filter (fun x => !ok x)).length ↔
          ∃ g ∈ f :: rest, ok g = false := by
        rw [List.length_pos]
        constructor
        · intro hne
          rcases List.exists_mem_of_ne_nil _ hne with ⟨g, hg⟩
          have hm := List.mem_filter.mp hg
          exact ⟨g, hm.1, by simpa using hm.2⟩
        · rintro ⟨g, hg, hf⟩ hnil
          have hmem : g ∈ (f :: rest).filter (fun x => !ok x) :=
            List.mem_filter.mpr ⟨hg, by simp [hf]⟩
          rw [hnil] at hmem
          simp at hmem
      refine ⟨?_, ?_, hsnd⟩
      · rw [hfst]
        constructor
        · intro h
          have hp : 0 < ((f :: rest).filter (fun x => !ok x)).length := by
            by_contra hc
            rw [if_neg hc] at h
            simp at h
          exact hiff.mp hp
        · intro hex
          rw [if_pos (hiff.mpr hex)]
          rfl
      · intro msg h
        rw [hfst] at h
        by_cases hp : 0 < ((f :: rest).filter (fun x => !ok x)).length
        · rw [if_pos hp] at h
          exact (Option.some.inj h).symm
        · rw [if_neg hp] at h
          exact absurd h (by simp)

/-- C9 witness: the aggregate-error characterization applied to a concrete
directory where exactly one of three files fails. -/
theorem C9_batch_aggregate_witness :
    (ProcessDirectoryGo ["a.json", "b.json", "c.json"] (fun f => f ≠ "b.json")).1 =
        some "1 files failed to process" ∧
    "1 files failed to process" =
        toString ((["a.json", "b.json", "c.json"].filter
          (fun f => !(fun g => g ≠ "b.json") f)).length) ++ " files failed to process" ∧
    (ProcessDirectoryGo ["a.json", "b.json", "c.json"] (fun f => f ≠ "b.json")).2 =
        ["a.json", "c.json"] :=
  ⟨rfl,
   (C9_batch_aggregate ["a.json", "b.json", "c.json"] (fun f => f ≠ "b.json")).2.1
     "1 files failed to process" rfl,
   rfl⟩

/-- C2 counterexample: `{"a": {"0": "x"}}` contains no sequence anywhere, yet
the default-config round trip does not reproduce it: flattening yields
`{"a.0": "x"}` and unflattening turns the numeric segment into an array
index, producing `{"a": [{}]}` (the value "x" is dropped), so `a` is
sequence-valued in the result while map-valued in the input. -/
theorem C2_counterexample :
    noSeqE (E [("a", Value.vobj (E [("0", Value.vstr "x")]))]) = true ∧
    FlattenMapWithOptions (E [("a", Value.vobj (E [("0", Value.vstr "x")]))]) ""
        DefaultFlattenOptions = E [("a.0", Value.vstr "x")] ∧
    UnflattenMapWithOptions (E [("a.0", Value.vstr "x")]) DefaultUnflattenOptions =
      some (E [("a", Value.varr (A [Value.vobj .nil]))]) ∧
    objValued ((E [("a", Value.vobj (E [("0", Value.vstr "x")]))]).lookupKey "a") = true ∧
    objValued ((E [("a", Value.varr (A [Value.vobj .nil]))]).lookupKey "a") = false :=
  ⟨rfl, rfl, rfl, rfl, rfl⟩

/-- C2 (amended): the default-config round trip
`UnflattenMapWithOptions (FlattenMapWithOptions doc "" default) default`
reproduces `doc` exactly for every document that, besides containing no
sequence anywhere (the claim's hypothesis, kept here as `noSeqE`), has
round-trip-safe keys throughout: every key non-empty, free of the separator
and of bracket notation, not parsed by strconv.Atoi, and no duplicates
(`flatSafeE`; it also permits empty sequences, so this hypothesis alone
suffices — the `noSeqE` assumption of the original claim is not used by the
proof). -/
theorem C2_amended (doc : EntryList) (hns : noSeqE doc = true)
    (hsafe : flatSafeE doc = true) :
    UnflattenMapWithOptions (FlattenMapWithOptions doc "" DefaultFlattenOptions)
      DefaultUnflattenOptions = some doc :=
  unflatten_flatten_id doc hsafe

/-- C2 witness: the amended round trip applied to the concrete document
`{"user": {"name": "John"}}`, all hypotheses discharged by evaluation. -/
theorem C2_amended_witness :
    noSeqE (E [("user", Value.vobj (E [("name", Value.vstr "John")]))]) = true ∧
    flatSafeE (E [("user", Value.vobj (E [("name", Value.vstr "John")]))]) = true ∧
    UnflattenMapWithOptions
        (FlattenMapWithOptions (E [("user", Value.vobj (E [("name", Value.vstr "John")]))])
          "" DefaultFlattenOptions) DefaultUnflattenOptions =
      some (E [("user", Value.vobj (E [("name", Value.vstr "John")]))]) :=
  ⟨rfl, rfl,
   C2_amended (E [("user", Value.vobj (E [("name", Value.vstr "John")]))]) rfl rfl⟩

/-- C8 counterexample: `{"a": {"0": []}}` holds the empty sequence at path
`a.0`; flattening does yield the flat entry `"a.0" ↦ []` as claimed, but
unflattening does not restore an empty sequence there: the numeric segment
is taken as an array index and the result is `{"a": [{}]}` — the empty
sequence came back as an empty map inside a promoted array, and `a` itself
flipped from map-valued to sequence-valued. -/
theorem C8_counterexample :
    lookupPath (E [("a", Value.vobj (E [("0", Value.varr .nil)]))]) ["a", "0"] =
      some (Value.varr .nil) ∧
    FlattenMapWithOptions (E [("a", Value.vobj (E [("0", Value.varr .nil)]))]) ""
        DefaultFlattenOptions = E [("a.0", Value.varr .nil)] ∧
    UnflattenMapWithOptions (E [("a.0", Value.varr .nil)]) DefaultUnflattenOptions =
      some (E [("a", Value.varr (A [Value.vobj .nil]))]) ∧
    lookupPath (E [("a", Value.varr (A [Value.vobj .nil]))]) ["a", "0"] = none ∧
    objValued ((E [("a", Value.varr (A [Value.vobj .nil]))]).lookupKey "a") = false :=
  ⟨rfl, rfl, rfl, rfl, rfl⟩

/-- C8 (amended): for every document with round-trip-safe keys
(`flatSafeE`) holding an empty container (empty map or empty sequence) at
some path, the default-config flat map has an entry at exactly the joined
path whose value is that empty container verbatim, and unflattening the
flat map reproduces the whole document — in particular the empty container
at that path, of the same kind.  (Without the key condition the restoration
half fails, e.g. under a numeric segment.) -/
theorem C8_amended (doc : EntryList) (p : List String) (c : Value)
    (hsafe : flatSafeE doc = true) (hlook : lookupPath doc p = some c)
    (hempty : c = Value.vobj .nil ∨ c = Value.varr .nil) :
    (FlattenMapWithOptions doc "" DefaultFlattenOptions).lookupKey (renderPath p) =
      some c ∧
    UnflattenMapWithOptions (FlattenMapWithOptions doc "" DefaultFlattenOptions)
      DefaultUnflattenOptions = some doc := by
  have hleaf : isLeafV c = true := by
    rcases hempty with rfl | rfl <;> rfl
  have hmem := lookupPath_leaves (sizeE doc) doc p c (le_refl _) hsafe hlook hleaf
  have hnodup := leaves_keys_nodup (sizeE doc) doc "" (le_refl _) hsafe
  constructor
  · rw [show FlattenMapWithOptions doc "" DefaultFlattenOptions =
      FlattenMap doc "" from rfl]
    rw [FlattenMap_renders doc "" hsafe]
    apply lookup_E_of_mem (renderPath p) c (renderLeaves "" (leavesE doc)) hnodup
    have hmem2 : (renderKey "" p, c) ∈ renderLeaves "" (leavesE doc) :=
      List.mem_map_of_mem _ hmem
    rw [show renderKey "" p = renderPath p from by rw [renderKey, if_pos rfl]] at hmem2
    exact hmem2
  · exact unflatten_flatten_id doc hsafe

/-- C8 witness: the amended statement applied to `{"a": {"b": []}}` at path
`["a", "b"]`, all hypotheses discharged by evaluation. -/
theorem C8_amended_witness :
    (FlattenMapWithOptions (E [("a", Value.vobj (E [("b", Value.varr .nil)]))]) ""
        DefaultFlattenOptions).lookupKey (renderPath ["a", "b"]) =
      some (Value.varr .nil) ∧
    UnflattenMapWithOptions
        (FlattenMapWithOptions (E [("a", Value.vobj (E [("b", Value.varr .nil)]))]) ""
          DefaultFlattenOptions) DefaultUnflattenOptions =
      some (E [("a", Value.vobj (E [("b", Value.varr .nil)]))]) :=
  C8_amended (E [("a", Value.vobj (E [("b", Value.varr .nil)]))]) ["a", "b"]
    (Value.varr .nil) rfl rfl (Or.inr rfl)

end Fitobj
